import Mathlib

set_option maxRecDepth 200000

/-!
Verification of the redoc-express rendering and plugin pipeline.

The development shallowly embeds the TypeScript sources:
strings are `List Char` (sequences of Unicode scalar values),
`s.replace(pat, rep)` for a string pattern is modelled with JavaScript
semantics (first occurrence only, `$`-substitution patterns in the
replacement), global single-character regex replaces are modelled by
`replaceChar`, and the case-insensitive global regex replace used by
`escapeScriptTagContent` is modelled by an explicit scan.  Asynchronous
hook chains are sequential by construction in the source (each step is
awaited before the next), so they are embedded as ordinary folds.
-/

namespace Redoc

/-- The apostrophe character, written via its code point. -/
def squote : Char := Char.ofNat 39

/-- The backslash character. -/
def bslash : Char := '\\'

/-! ### Generic list-of-characters utilities -/

/-- Global replacement of a single character by a string, the model of
`s.replace(/c/g, r)` for a single-character regex with a `$`-free
replacement. -/
def replaceChar (a : Char) (r : List Char) : List Char → List Char
  | [] => []
  | c :: cs => (if c = a then r else [c]) ++ replaceChar a r cs

/-- Whether `pat` occurs as a contiguous substring of the second list. -/
def containsSub (pat : List Char) : List Char → Bool
  | [] => pat.isPrefixOf ([] : List Char)
  | c :: cs => pat.isPrefixOf (c :: cs) || containsSub pat cs

/-- Number of positions at which `pat` occurs in the second list. -/
def countOcc (pat : List Char) : List Char → Nat
  | [] => 0
  | c :: cs => (if pat.isPrefixOf (c :: cs) then 1 else 0) + countOcc pat cs

/-- Index of the first occurrence of `pat`, the model of
`String.prototype.indexOf` for a string search value. -/
def findFirst (pat : List Char) : List Char → Option Nat
  | [] => if pat.isPrefixOf ([] : List Char) then some 0 else none
  | c :: cs =>
    if pat.isPrefixOf (c :: cs) then some 0
    else (findFirst pat cs).map (· + 1)

/-- Model of the `GetSubstitution` step of `String.prototype.replace`
with a string search value: in the replacement text, `$$` produces `$`,
`$&` the matched text, a dollar followed by a backquote the text before
the match, and a dollar followed by a quote the text after the match.
With a string search value there are no capture groups, so every other
`$` sequence is literal. -/
def getSubstitution (matched before after : List Char) : List Char → List Char
  | [] => []
  | c :: cs =>
    if c = '$' then
      match cs with
      | [] => [c]
      | d :: ds =>
        if d = '$' then '$' :: getSubstitution matched before after ds
        else if d = '&' then matched ++ getSubstitution matched before after ds
        else if d = Char.ofNat 96 then before ++ getSubstitution matched before after ds
        else if d = squote then after ++ getSubstitution matched before after ds
        else c :: getSubstitution matched before after (d :: ds)
    else c :: getSubstitution matched before after cs

/-- Model of `s.replace(pat, rep)` for string `pat` and `rep`:
replaces the first occurrence of `pat`, processing `$` patterns
in `rep`; returns `s` unchanged when `pat` does not occur. -/
def replaceJS (s pat rep : List Char) : List Char :=
  match findFirst pat s with
  | none => s
  | some i =>
    s.take i ++ getSubstitution pat (s.take i) (s.drop (i + pat.length)) rep
      ++ s.drop (i + pat.length)

/-! ### `src/escape.ts` -/

/-- One lowercase hexadecimal digit, as produced by `Number.prototype.toString(16)`. -/
def hexDigit (n : Nat) : Char :=
  if n < 10 then Char.ofNat (48 + n) else Char.ofNat (87 + n)

/-- The control-character pass of `escapeJsString`: the `for` loop that
maps every remaining character of code point at most 31 to a
two-hex-digit `\xHH` escape and keeps all other characters. -/
def escCtrl (c : Char) : List Char :=
  if c.toNat ≤ 31 then
    if c.toNat ≤ 0x0f then [bslash, 'x', '0', hexDigit c.toNat]
    else [bslash, 'x', hexDigit (c.toNat / 16), hexDigit (c.toNat % 16)]
  else [c]

/-- Model of `escapeJsString` from `src/escape.ts`: the five sequential
global replaces (backslash, double quote, newline, carriage return, tab)
followed by the control-character loop. -/
def escapeJsString (s : List Char) : List Char :=
  (replaceChar '\t' [bslash, 't']
    (replaceChar '\r' [bslash, 'r']
      (replaceChar '\n' [bslash, 'n']
        (replaceChar '"' [bslash, '"']
          (replaceChar bslash [bslash, bslash] s))))).flatMap escCtrl

/-- The list of characters of the lowercase closing tag `</script>`. -/
def scriptCloseChars : List Char := "</script>".data

/-- The replacement text used by `escapeScriptTagContent`. -/
def scriptCloseRepl : List Char := "\\u003c/script>".data

/-- Whether the next nine characters spell `</script>` up to ASCII case,
the per-position test of the case-insensitive regex `/<\/script>/gi`. -/
def closeTagAt (l : List Char) : Bool :=
  decide ((l.take 9).map Char.toLower = scriptCloseChars)

/-- Model of `escapeScriptTagContent` from `src/escape.ts`:
`s.replace(/<\/script>/gi, '\\u003c/script>')`, scanning left to right
and replacing every (non-overlapping) case-insensitive occurrence. -/
def escapeScriptTagContent : List Char → List Char
  | [] => []
  | c :: cs =>
    if closeTagAt (c :: cs) then scriptCloseRepl ++ escapeScriptTagContent (cs.drop 8)
    else c :: escapeScriptTagContent cs
termination_by l => l.length
decreasing_by
  · simp only [List.length_cons, List.length_drop]; omega
  · simp

/-- Whether some position of `l` starts a case-insensitive occurrence of
`</script>`. -/
def hasScriptClose : List Char → Bool
  | [] => false
  | c :: cs => closeTagAt (c :: cs) || hasScriptClose cs

/-- Model of the script-execution-time decoding of the inserted escapes:
replaces every occurrence of the literal six-character text `\u003c`
by `<` (the value the JavaScript escape denotes). -/
def unescapeU003c : List Char → List Char
  | [] => []
  | c :: cs =>
    if ((c :: cs).take 6) = [bslash, 'u', '0', '0', '3', 'c'] then
      '<' :: unescapeU003c (cs.drop 5)
    else c :: unescapeU003c cs
termination_by l => l.length
decreasing_by
  · simp only [List.length_cons, List.length_drop]; omega
  · simp

/-- Whether `s` is free of the literal six-character text `\u003c`
(such text would be altered by the decoding pass although the escaper
did not insert it). -/
def noU003c : List Char → Bool
  | [] => true
  | c :: cs =>
    !(decide (((c :: cs).take 6) = [bslash, 'u', '0', '0', '3', 'c'])) && noU003c cs

/-- Whether every case-insensitive occurrence of `</script>` in `s` is
spelled exactly in lowercase. -/
def onlyLowerCloses : List Char → Bool
  | [] => true
  | c :: cs =>
    (if closeTagAt (c :: cs) then decide ((c :: cs).take 9 = scriptCloseChars) else true)
      && onlyLowerCloses cs

/-! ### Modelled dependency: the `xss` npm package

The two helpers the renderer imports from the `xss` package are not part
of this repository.  Modelled from the spec and pinned by the
repository's own tests (`tests/html-injection.spec.ts`, which asserts
that `"` and the apostrophe pass through a rendered title unescaped
while `<`, `>` become `&lt;`, `&gt;`, and that an apostrophe-escaped
nonce additionally escapes `"`). -/

namespace Xss

/-- Modelled from the spec: `escapeHtml` of the `xss` package replaces
every `<` by `&lt;` and every `>` by `&gt;`, and nothing else. -/
def escapeHtml (s : List Char) : List Char :=
  replaceChar '>' "&gt;".data (replaceChar '<' "&lt;".data s)

/-- Modelled from the spec: `escapeAttrValue` of the `xss` package is
`escapeQuote(escapeHtml(str))`: it escapes `<`, `>` and then replaces
every `"` by `&quot;`. -/
def escapeAttrValue (s : List Char) : List Char :=
  replaceChar '"' "&quot;".data (escapeHtml s)

end Xss

/-! ### JSON values and `JSON.stringify` -/

/-- The left curly brace character. -/
def lbrace : Char := Char.ofNat 123

/-- The right curly brace character. -/
def rbrace : Char := Char.ofNat 125

/-- JSON-serialisable values: the domain of the renderer's
`redocOptions` input.  Numbers are modelled by integers (the fragment
whose `JSON.stringify` rendering is plain decimal). -/
inductive Json where
  | null : Json
  | bool (b : Bool) : Json
  | num (n : Int) : Json
  | str (s : List Char) : Json
  | arr (elems : List Json) : Json
  | obj (fields : List (List Char × Json)) : Json

/-- Character escaping of `JSON.stringify` inside a string value. -/
def jsonEscapeChar (c : Char) : List Char :=
  if c = '"' then [bslash, '"']
  else if c = bslash then [bslash, bslash]
  else if c.toNat = 8 then [bslash, 'b']
  else if c.toNat = 12 then [bslash, 'f']
  else if c = '\n' then [bslash, 'n']
  else if c = '\r' then [bslash, 'r']
  else if c = '\t' then [bslash, 't']
  else if c.toNat < 32 then
    [bslash, 'u', '0', '0', hexDigit (c.toNat / 16), hexDigit (c.toNat % 16)]
  else [c]

/-- A double-quoted JSON string literal. -/
def jsonQuote (s : List Char) : List Char :=
  '"' :: s.flatMap jsonEscapeChar ++ ['"']

/-- Decimal rendering of an integer, as `JSON.stringify` prints the
integer-valued numbers modelled here. -/
def intToDecimal (n : Int) : List Char :=
  if n < 0 then '-' :: Nat.toDigits 10 n.natAbs else Nat.toDigits 10 n.toNat

mutual

/-- Model of `JSON.stringify` (no indentation argument), on the `Json`
fragment: object fields in their insertion order. -/
def jsonStringify : Json → List Char
  | .null => "null".data
  | .bool true => "true".data
  | .bool false => "false".data
  | .num n => intToDecimal n
  | .str s => jsonQuote s
  | .arr elems => '[' :: jsonStringifyList elems ++ [']']
  | .obj fields => lbrace :: jsonStringifyFields fields ++ [rbrace]

/-- Comma-joined renderings of array elements. -/
def jsonStringifyList : List Json → List Char
  | [] => []
  | [x] => jsonStringify x
  | x :: y :: rest => jsonStringify x ++ ',' :: jsonStringifyList (y :: rest)

/-- Comma-joined renderings of object fields. -/
def jsonStringifyFields : List (List Char × Json) → List Char
  | [] => []
  | [(k, v)] => jsonQuote k ++ ':' :: jsonStringify v
  | (k, v) :: f :: rest =>
    (jsonQuote k ++ ':' :: jsonStringify v) ++ ',' :: jsonStringifyFields (f :: rest)

end

/-! ### `src/redoc-html-template.ts` -/

/-- The fixed template constant `html` of `src/redoc-html-template.ts`
(curly braces and apostrophes written via character escapes). -/
def html : List Char :=
  ("<!DOCTYPE html>\n<html>\n  <head>\n    <title>[[title]]</title>\n    <meta charset=\"utf-8\" />\n    <meta name=\"viewport\" content=\"width=device-width, initial-scale=1\" />\n    <link href=\"https://fonts.googleapis.com/css?family=Montserrat:300,400,700|Roboto:300,400,700\" rel=\"stylesheet\" />\n    <style>\n      body \x7b\n        margin: 0;\n        padding: 0;\n      \x7d\n    </style>\n  </head>\n  <body>\n    <div id=\"redoc-container\"></div>\n    <script nonce=\x27[[nonce]]\x27 src=\"https://unpkg.com/redoc@2.5.2/bundles/redoc.standalone.js\"> </script>\n  </body>\n  <script>\n    Redoc.init(\n      \"[[spec-url]]\",\n      [[options]],\n      document.getElementById(\"redoc-container\")\n    );\n  </script>\n</html>").data

/-- The `[[title]]` placeholder. -/
def ttlPat : List Char := "[[title]]".data

/-- The `[[spec-url]]` placeholder. -/
def specPat : List Char := "[[spec-url]]".data

/-- The `[[nonce]]` placeholder. -/
def noncePat : List Char := "[[nonce]]".data

/-- The `[[options]]` placeholder. -/
def optPat : List Char := "[[options]]".data

/-- Template text before `[[title]]`. -/
def seg0 : List Char := "<!DOCTYPE html>\n<html>\n  <head>\n    <title>".data

/-- Template text between `[[title]]` and `[[nonce]]`. -/
def seg1 : List Char :=
  ("</title>\n    <meta charset=\"utf-8\" />\n    <meta name=\"viewport\" content=\"width=device-width, initial-scale=1\" />\n    <link href=\"https://fonts.googleapis.com/css?family=Montserrat:300,400,700|Roboto:300,400,700\" rel=\"stylesheet\" />\n    <style>\n      body \x7b\n        margin: 0;\n        padding: 0;\n      \x7d\n    </style>\n  </head>\n  <body>\n    <div id=\"redoc-container\"></div>\n    <script nonce=\x27").data

/-- Template text between `[[nonce]]` and `[[spec-url]]`. -/
def seg2 : List Char :=
  ("\x27 src=\"https://unpkg.com/redoc@2.5.2/bundles/redoc.standalone.js\"> </script>\n  </body>\n  <script>\n    Redoc.init(\n      \"").data

/-- Template text between `[[spec-url]]` and `[[options]]`. -/
def seg3 : List Char := "\",\n      ".data

/-- Template text after `[[options]]`. -/
def seg4 : List Char :=
  (",\n      document.getElementById(\"redoc-container\")\n    );\n  </script>\n</html>").data

/-- The template decomposes into its five fixed segments around the
four placeholders, in the order title, nonce, spec-url, options. -/
theorem html_decomp :
    html = seg0 ++ ttlPat ++ seg1 ++ noncePat ++ seg2 ++ specPat ++ seg3 ++ optPat ++ seg4 := by
  decide

/-- The `safeTitle` value of `redocHtml`/`redocHtmlSync`:
`xss.escapeHtml(title.replace(/&/g, '&amp;'))`. -/
def safeTitle (title : List Char) : List Char :=
  Xss.escapeHtml (replaceChar '&' "&amp;".data title)

/-- The `safeSpecUrl` value: `escapeScriptTagContent(escapeJsString(specUrl))`. -/
def safeSpecUrl (specUrl : List Char) : List Char :=
  escapeScriptTagContent (escapeJsString specUrl)

/-- The `safeNonce` value:
`xss.escapeAttrValue(nonce.replace(/'/g, '&#39;'))`. -/
def safeNonce (nonce : List Char) : List Char :=
  Xss.escapeAttrValue (replaceChar squote "&#39;".data nonce)

/-- The `safeOptions` value: `escapeScriptTagContent(JSON.stringify(redocOptions))`. -/
def safeOptions (redocOptions : Json) : List Char :=
  escapeScriptTagContent (jsonStringify redocOptions)

/-- The four sequential `replace` calls of `redocHtmlSync` (and of the
base-template part of `redocHtml`), in source order: title, spec-url,
nonce, options. -/
def fillTemplate (t u n o : List Char) : List Char :=
  replaceJS (replaceJS (replaceJS (replaceJS html ttlPat t) specPat u) noncePat n) optPat o

/-- Model of `redocHtmlSync` (also the base document `redocHtml`
computes before any plugin hook runs): escape each input and fill the
template. -/
def redocHtmlSync (title specUrl nonce : List Char) (redocOptions : Json) : List Char :=
  fillTemplate (safeTitle title) (safeSpecUrl specUrl) (safeNonce nonce)
    (safeOptions redocOptions)

/-! ### Characterisation of `escapeJsString` and the round-trip law -/

theorem replaceChar_append (a : Char) (r x y : List Char) :
    replaceChar a r (x ++ y) = replaceChar a r x ++ replaceChar a r y := by
  induction x with
  | nil => rfl
  | cons c cs ih => simp [replaceChar, ih]

/-- The per-character table of `escapeJsString`: the net effect of the
five sequential replaces followed by the control-character loop on one
input character. -/
def escJsChar (c : Char) : List Char :=
  if c = bslash then [bslash, bslash]
  else if c = '"' then [bslash, '"']
  else if c = '\n' then [bslash, 'n']
  else if c = '\r' then [bslash, 'r']
  else if c = '\t' then [bslash, 't']
  else escCtrl c

theorem escapeJsString_append (x y : List Char) :
    escapeJsString (x ++ y) = escapeJsString x ++ escapeJsString y := by
  simp [escapeJsString, replaceChar_append]

theorem escapeJsString_singleton (c : Char) : escapeJsString [c] = escJsChar c := by
  by_cases h1 : c = bslash
  · subst h1; rfl
  · by_cases h2 : c = '"'
    · subst h2; rfl
    · by_cases h3 : c = '\n'
      · subst h3; rfl
      · by_cases h4 : c = '\r'
        · subst h4; rfl
        · by_cases h5 : c = '\t'
          · subst h5; rfl
          · simp [escapeJsString, replaceChar, escJsChar, h1, h2, h3, h4, h5]

theorem escapeJsString_eq_flatMap (s : List Char) :
    escapeJsString s = s.flatMap escJsChar := by
  induction s with
  | nil => rfl
  | cons c cs ih =>
    have h : (c :: cs) = [c] ++ cs := rfl
    rw [h, escapeJsString_append, ih]
    simp [List.flatMap_append, escapeJsString_singleton]

/-- Numeric value of one hexadecimal digit character, as read by a
JavaScript `\xHH` escape. -/
def hexVal (c : Char) : Option Nat :=
  if 48 ≤ c.toNat ∧ c.toNat ≤ 57 then some (c.toNat - 48)
  else if 97 ≤ c.toNat ∧ c.toNat ≤ 102 then some (c.toNat - 87)
  else if 65 ≤ c.toNat ∧ c.toNat ≤ 70 then some (c.toNat - 55)
  else none

/-- Evaluator for the body of a double-quoted JavaScript string literal:
the value obtained at script-execution time.  Handles the escape forms
relevant here (`\\`, `\"`, `\n`, `\r`, `\t`, `\b`, `\f`, `\v`, `\0`,
`\xHH`) and JavaScript's non-escape rule `\c ↦ c` for other characters;
`none` on a truncated or malformed escape. -/
def jsUnescape : List Char → Option (List Char)
  | [] => some []
  | c :: cs =>
    if c = bslash then
      match cs with
      | [] => none
      | d :: ds =>
        if d = bslash then (jsUnescape ds).map (bslash :: ·)
        else if d = '"' then (jsUnescape ds).map ('"' :: ·)
        else if d = 'n' then (jsUnescape ds).map ('\n' :: ·)
        else if d = 'r' then (jsUnescape ds).map ('\r' :: ·)
        else if d = 't' then (jsUnescape ds).map ('\t' :: ·)
        else if d = 'b' then (jsUnescape ds).map (Char.ofNat 8 :: ·)
        else if d = 'f' then (jsUnescape ds).map (Char.ofNat 12 :: ·)
        else if d = 'v' then (jsUnescape ds).map (Char.ofNat 11 :: ·)
        else if d = '0' then (jsUnescape ds).map (Char.ofNat 0 :: ·)
        else if d = 'x' then
          match ds with
          | h1 :: h2 :: es =>
            match hexVal h1, hexVal h2 with
            | some a, some b => (jsUnescape es).map (Char.ofNat (16 * a + b) :: ·)
            | _, _ => none
          | _ => none
        else (jsUnescape ds).map (d :: ·)
    else (jsUnescape cs).map (c :: ·)

theorem hexVal_hexDigit : ∀ n : Nat, n < 16 → hexVal (hexDigit n) = some n := by
  decide

theorem jsUnescape_x_escape (d1 d2 : Char) (es : List Char) (a b : Nat)
    (h1 : hexVal d1 = some a) (h2 : hexVal d2 = some b) :
    jsUnescape (bslash :: 'x' :: d1 :: d2 :: es)
      = (jsUnescape es).map (Char.ofNat (16 * a + b) :: ·) := by
  rw [jsUnescape.eq_def]
  simp [bslash, h1, h2]

theorem jsUnescape_plain (c : Char) (rest : List Char) (h : ¬ c = bslash) :
    jsUnescape (c :: rest) = (jsUnescape rest).map (c :: ·) := by
  rw [jsUnescape.eq_def]
  simp [h]

theorem jsUnescape_escJsChar (c : Char) (rest : List Char) :
    jsUnescape (escJsChar c ++ rest) = (jsUnescape rest).map (c :: ·) := by
  by_cases h1 : c = bslash
  · subst h1
    have he : escJsChar bslash = [bslash, bslash] := by simp [escJsChar]
    rw [he, List.cons_append, List.cons_append, List.nil_append, jsUnescape.eq_def]
    simp [bslash]
  · by_cases h2 : c = '"'
    · subst h2
      have he : escJsChar '"' = [bslash, '"'] := by simp [escJsChar, bslash]
      rw [he, List.cons_append, List.cons_append, List.nil_append, jsUnescape.eq_def]
      simp [bslash]
    · by_cases h3 : c = '\n'
      · subst h3
        have he : escJsChar '\n' = [bslash, 'n'] := by simp [escJsChar, bslash]
        rw [he, List.cons_append, List.cons_append, List.nil_append, jsUnescape.eq_def]
        simp [bslash]
      · by_cases h4 : c = '\r'
        · subst h4
          have he : escJsChar '\r' = [bslash, 'r'] := by simp [escJsChar, bslash]
          rw [he, List.cons_append, List.cons_append, List.nil_append, jsUnescape.eq_def]
          simp [bslash]
        · by_cases h5 : c = '\t'
          · subst h5
            have he : escJsChar '\t' = [bslash, 't'] := by simp [escJsChar, bslash]
            rw [he, List.cons_append, List.cons_append, List.nil_append, jsUnescape.eq_def]
            simp [bslash]
          · by_cases hc : c.toNat ≤ 31
            · by_cases hlo : c.toNat ≤ 0x0f
              · have he : escJsChar c = [bslash, 'x', '0', hexDigit c.toNat] := by
                  simp [escJsChar, escCtrl, h1, h2, h3, h4, h5, hc, hlo]
                have hv0 : hexVal '0' = some 0 := by decide
                have hv : hexVal (hexDigit c.toNat) = some c.toNat :=
                  hexVal_hexDigit _ (by omega)
                rw [he]
                simp only [List.cons_append, List.nil_append]
                rw [jsUnescape_x_escape _ _ _ _ _ hv0 hv]
                norm_num [Char.ofNat_toNat]
              · have hdiv : c.toNat / 16 = 1 := by omega
                have he : escJsChar c = [bslash, 'x', hexDigit (c.toNat / 16),
                    hexDigit (c.toNat % 16)] := by
                  simp [escJsChar, escCtrl, h1, h2, h3, h4, h5, hc, hlo]
                have hv1 : hexVal (hexDigit (c.toNat / 16)) = some 1 := by
                  rw [hdiv]; exact hexVal_hexDigit 1 (by omega)
                have hv2 : hexVal (hexDigit (c.toNat % 16)) = some (c.toNat % 16) :=
                  hexVal_hexDigit _ (by omega)
                have hmod : 16 * 1 + c.toNat % 16 = c.toNat := by omega
                rw [he]
                simp only [List.cons_append, List.nil_append]
                rw [jsUnescape_x_escape _ _ _ _ _ hv1 hv2, hmod, Char.ofNat_toNat]
            · have he : escJsChar c = [c] := by
                simp [escJsChar, escCtrl, h1, h2, h3, h4, h5, hc]
              rw [he, List.cons_append, List.nil_append]
              exact jsUnescape_plain c rest h1

theorem jsUnescape_escapeJsString (s : List Char) :
    jsUnescape (escapeJsString s) = some s := by
  rw [escapeJsString_eq_flatMap]
  induction s with
  | nil => rfl
  | cons c cs ih =>
    rw [List.flatMap_cons, jsUnescape_escJsChar, ih]
    rfl

/-! ### Properties of `escapeScriptTagContent` -/

theorem toNat_ofNat_valid {m : Nat} (h : m < 55296) : (Char.ofNat m).toNat = m := by
  unfold Char.ofNat
  rw [dif_pos (Or.inl h)]
  simp only [Char.ofNatAux, Char.toNat]
  exact BitVec.toNat_ofNatLt _ _

/-- ASCII lowercasing can only produce a lowercase letter or leave the
character unchanged. -/
theorem toLower_eq_of_not_lower {c d : Char} (hd : d.toNat < 97 ∨ 122 < d.toNat)
    (h : Char.toLower c = d) : c = d := by
  by_cases hu : c.toNat ≥ 65 ∧ c.toNat ≤ 90
  · exfalso
    have h2 : Char.toLower c = Char.ofNat (c.toNat + 32) := by
      simp [Char.toLower, hu]
    rw [h2] at h
    have h3 : (Char.ofNat (c.toNat + 32)).toNat = c.toNat + 32 :=
      toNat_ofNat_valid (by omega)
    rw [h] at h3
    omega
  · rwa [show Char.toLower c = c by simp [Char.toLower, hu]] at h

theorem escape_cons_match {c : Char} {cs : List Char} (h : closeTagAt (c :: cs) = true) :
    escapeScriptTagContent (c :: cs)
      = scriptCloseRepl ++ escapeScriptTagContent (cs.drop 8) := by
  rw [escapeScriptTagContent.eq_def]
  simp [h]

theorem escape_cons_else {c : Char} {cs : List Char} (h : ¬ closeTagAt (c :: cs) = true) :
    escapeScriptTagContent (c :: cs) = c :: escapeScriptTagContent cs := by
  rw [escapeScriptTagContent.eq_def]
  simp [h]

theorem escape_nil : escapeScriptTagContent [] = [] := by
  rw [escapeScriptTagContent.eq_def]

theorem unescape_nil : unescapeU003c [] = [] := by
  rw [unescapeU003c.eq_def]

theorem closeTagAt_head {l : List Char} (h : closeTagAt l = true) : ∃ r, l = '<' :: r := by
  cases l with
  | nil => simp [closeTagAt, scriptCloseChars] at h
  | cons c r =>
    refine ⟨r, ?_⟩
    simp only [closeTagAt, scriptCloseChars, List.take_succ_cons, List.map_cons,
      decide_eq_true_eq, String.data] at h
    have hc : c = '<' := toLower_eq_of_not_lower (Or.inl (by decide)) (List.head_eq_of_cons_eq h)
    rw [hc]

theorem hasScriptClose_append_left {p q : List Char} (hp : '<' ∉ p) :
    hasScriptClose (p ++ q) = hasScriptClose q := by
  induction p with
  | nil => rfl
  | cons c p' ih =>
    have hc : closeTagAt (c :: (p' ++ q)) = false := by
      by_contra hcon
      rcases closeTagAt_head (Bool.of_not_eq_false hcon) with ⟨r, hr⟩
      exact hp (by rw [List.head_eq_of_cons_eq hr]; exact List.mem_cons_self _ _)
    have hp' : '<' ∉ p' := fun hm => hp (List.mem_cons_of_mem _ hm)
    simp [hasScriptClose, hc, ih hp']

theorem scriptCloseRepl_no_lt : '<' ∉ scriptCloseRepl := by decide

/-- If a prefix of the escaped text lowercases to a backslash-free word,
that word is already a lowercased prefix of the input. -/
theorem escape_take_lower (cs : List Char) :
    ∀ t : List Char, bslash ∉ t →
      ((escapeScriptTagContent cs).take t.length).map Char.toLower = t →
      (cs.take t.length).map Char.toLower = t := by
  induction cs using escapeScriptTagContent.induct with
  | case1 =>
    intro t hb h
    have ht : t = [] := by simpa [escapeScriptTagContent] using h.symm
    subst ht
    simp
  | case2 c cs hc ih =>
    intro t hb h
    cases t with
    | nil => simp
    | cons t0 t' =>
      exfalso
      rw [escape_cons_match hc,
        show scriptCloseRepl = bslash :: "u003c/script>".data from rfl] at h
      simp only [List.length_cons, List.cons_append, List.take_succ_cons, List.map_cons] at h
      have : Char.toLower bslash = t0 := List.head_eq_of_cons_eq h
      have hbt : t0 = bslash := by
        rw [← this]; rfl
      exact hb (by rw [← hbt]; exact List.mem_cons_self _ _)
  | case3 c cs hc ih =>
    intro t hb h
    cases t with
    | nil => simp
    | cons t0 t' =>
      rw [escape_cons_else hc] at h
      simp only [List.length_cons, List.take_succ_cons, List.map_cons, List.cons.injEq] at h
      obtain ⟨h1, h2⟩ := h
      have hb' : bslash ∉ t' := fun hm => hb (List.mem_cons_of_mem _ hm)
      have := ih t' hb' h2
      simp only [List.length_cons, List.take_succ_cons, List.map_cons, List.cons.injEq]
      exact ⟨h1, this⟩

/-- Plain-equality version: if a prefix of the escaped text is a
backslash-free word, that word is already a prefix of the input. -/
theorem escape_take_eq (cs : List Char) :
    ∀ t : List Char, bslash ∉ t →
      (escapeScriptTagContent cs).take t.length = t →
      cs.take t.length = t := by
  induction cs using escapeScriptTagContent.induct with
  | case1 =>
    intro t hb h
    have ht : t = [] := by simpa [escapeScriptTagContent] using h.symm
    subst ht
    simp
  | case2 c cs hc ih =>
    intro t hb h
    cases t with
    | nil => simp
    | cons t0 t' =>
      exfalso
      rw [escape_cons_match hc,
        show scriptCloseRepl = bslash :: "u003c/script>".data from rfl] at h
      simp only [List.length_cons, List.cons_append, List.take_succ_cons] at h
      have : bslash = t0 := List.head_eq_of_cons_eq h
      exact hb (by rw [this]; exact List.mem_cons_self _ _)
  | case3 c cs hc ih =>
    intro t hb h
    cases t with
    | nil => simp
    | cons t0 t' =>
      rw [escape_cons_else hc] at h
      simp only [List.length_cons, List.take_succ_cons, List.cons.injEq] at h
      obtain ⟨h1, h2⟩ := h
      have hb' : bslash ∉ t' := fun hm => hb (List.mem_cons_of_mem _ hm)
      have := ih t' hb' h2
      simp only [List.length_cons, List.take_succ_cons, List.cons.injEq]
      exact ⟨h1, this⟩

theorem closeTagAt_escape_cons {c : Char} {cs : List Char}
    (h : closeTagAt (c :: escapeScriptTagContent cs) = true) :
    closeTagAt (c :: cs) = true := by
  simp only [closeTagAt, List.take_succ_cons, List.map_cons, decide_eq_true_eq,
    show scriptCloseChars = '<' :: ['/', 's', 'c', 'r', 'i', 'p', 't', '>'] from rfl,
    List.cons.injEq] at h ⊢
  obtain ⟨h1, h2⟩ := h
  refine ⟨h1, ?_⟩
  exact escape_take_lower cs ['/', 's', 'c', 'r', 'i', 'p', 't', '>'] (by decide) h2

/-- The escaped text contains no case-insensitive occurrence of
`</script>` at any position. -/
theorem hasScriptClose_escape (s : List Char) :
    hasScriptClose (escapeScriptTagContent s) = false := by
  induction s using escapeScriptTagContent.induct with
  | case1 => rw [escape_nil]; rfl
  | case2 c cs hc ih =>
    rw [escape_cons_match hc, hasScriptClose_append_left scriptCloseRepl_no_lt]
    exact ih
  | case3 c cs hc ih =>
    rw [escape_cons_else hc]
    have h1 : closeTagAt (c :: escapeScriptTagContent cs) = false := by
      by_contra hcon
      exact hc (closeTagAt_escape_cons (Bool.of_not_eq_false hcon))
    simp [hasScriptClose, h1, ih]

theorem escape_eq_self_of_no_close {l : List Char} (h : hasScriptClose l = false) :
    escapeScriptTagContent l = l := by
  induction l using escapeScriptTagContent.induct with
  | case1 => exact escape_nil
  | case2 c cs hc ih => simp [hasScriptClose, hc] at h
  | case3 c cs hc ih =>
    have h' : hasScriptClose cs = false := by
      simp only [hasScriptClose, Bool.or_eq_false_iff] at h
      exact h.2
    rw [escape_cons_else hc, ih h']

/-- Idempotence of `escapeScriptTagContent`. -/
theorem escape_idem (s : List Char) :
    escapeScriptTagContent (escapeScriptTagContent s) = escapeScriptTagContent s :=
  escape_eq_self_of_no_close (hasScriptClose_escape s)

theorem unescape_cons_plain {c : Char} (cs : List Char) (h : ¬ c = bslash) :
    unescapeU003c (c :: cs) = c :: unescapeU003c cs := by
  have hcond : ¬ ((c :: cs).take 6 = [bslash, 'u', '0', '0', '3', 'c']) := by
    intro hval
    simp only [List.take_succ_cons, List.cons.injEq] at hval
    exact h hval.1
  rw [unescapeU003c.eq_def]
  show (if (c :: cs).take 6 = [bslash, 'u', '0', '0', '3', 'c']
      then '<' :: unescapeU003c (cs.drop 5) else c :: unescapeU003c cs)
    = c :: unescapeU003c cs
  rw [if_neg hcond]

theorem unescape_repl (X : List Char) :
    unescapeU003c (scriptCloseRepl ++ X) = scriptCloseChars ++ unescapeU003c X := by
  rw [show scriptCloseRepl
      = bslash :: 'u' :: '0' :: '0' :: '3' :: 'c'
        :: '/' :: 's' :: 'c' :: 'r' :: 'i' :: 'p' :: 't' :: '>' :: [] from rfl]
  simp only [List.cons_append, List.nil_append]
  rw [unescapeU003c.eq_def]
  simp only [List.take_succ_cons, List.take_zero, if_pos rfl, List.drop_succ_cons,
    List.drop_zero, reduceIte]
  rw [unescape_cons_plain _ (by decide), unescape_cons_plain _ (by decide),
    unescape_cons_plain _ (by decide), unescape_cons_plain _ (by decide),
    unescape_cons_plain _ (by decide), unescape_cons_plain _ (by decide),
    unescape_cons_plain _ (by decide), unescape_cons_plain _ (by decide)]
  rfl

theorem noU003c_tail {c : Char} {cs : List Char} (h : noU003c (c :: cs) = true) :
    noU003c cs = true := by
  simp only [noU003c, Bool.and_eq_true] at h
  exact h.2

theorem noU003c_drop (k : Nat) {l : List Char} (h : noU003c l = true) :
    noU003c (l.drop k) = true := by
  induction k generalizing l with
  | zero => simpa using h
  | succ k ih =>
    cases l with
    | nil => simpa using h
    | cons c cs => exact ih (noU003c_tail h)

theorem onlyLowerCloses_tail {c : Char} {cs : List Char}
    (h : onlyLowerCloses (c :: cs) = true) : onlyLowerCloses cs = true := by
  simp only [onlyLowerCloses, Bool.and_eq_true] at h
  exact h.2

theorem onlyLowerCloses_drop (k : Nat) {l : List Char}
    (h : onlyLowerCloses l = true) : onlyLowerCloses (l.drop k) = true := by
  induction k generalizing l with
  | zero => simpa using h
  | succ k ih =>
    cases l with
    | nil => simpa using h
    | cons c cs => exact ih (onlyLowerCloses_tail h)

/-- Decoding the inserted escapes recovers the input exactly, for inputs
that contain no literal `<` text and whose `</script>` occurrences
are all lowercase. -/
theorem unescape_escape :
    ∀ s, noU003c s = true → onlyLowerCloses s = true →
      unescapeU003c (escapeScriptTagContent s) = s := by
  intro s
  induction s using escapeScriptTagContent.induct with
  | case1 => intro _ _; rw [escape_nil, unescape_nil]
  | case2 c cs hc ih =>
    intro h1 h2
    have hexact : (c :: cs).take 9 = scriptCloseChars := by
      simp only [onlyLowerCloses, hc, if_true, Bool.and_eq_true, decide_eq_true_eq] at h2
      exact h2.1
    have hn : noU003c (cs.drop 8) = true := noU003c_drop 8 (noU003c_tail h1)
    have ho : onlyLowerCloses (cs.drop 8) = true :=
      onlyLowerCloses_drop 8 (onlyLowerCloses_tail h2)
    rw [escape_cons_match hc, unescape_repl, ih hn ho]
    calc scriptCloseChars ++ cs.drop 8
        = (c :: cs).take 9 ++ (c :: cs).drop 9 := by
          rw [hexact]; simp [List.drop_succ_cons]
      _ = c :: cs := List.take_append_drop 9 (c :: cs)
  | case3 c cs hc ih =>
    intro h1 h2
    have hn : noU003c cs = true := noU003c_tail h1
    have ho : onlyLowerCloses cs = true := onlyLowerCloses_tail h2
    rw [escape_cons_else hc]
    have hcond : ¬ ((c :: escapeScriptTagContent cs).take 6
        = [bslash, 'u', '0', '0', '3', 'c']) := by
      intro hval
      simp only [List.take_succ_cons, List.cons.injEq] at hval
      obtain ⟨hcb, h5⟩ := hval
      have hc5 : cs.take 5 = ['u', '0', '0', '3', 'c'] :=
        escape_take_eq cs ['u', '0', '0', '3', 'c'] (by decide) h5
      have h6 : (c :: cs).take 6 = [bslash, 'u', '0', '0', '3', 'c'] := by
        simp [List.take_succ_cons, hcb, hc5]
      have hhead : (!(decide ((c :: cs).take 6 = [bslash, 'u', '0', '0', '3', 'c']))) = true := by
        have h1' := h1
        simp only [noU003c, Bool.and_eq_true] at h1'
        exact h1'.1
      rw [h6] at hhead
      simp at hhead
    rw [unescapeU003c.eq_def]
    simp only [hcond, if_false, reduceIte]
    rw [ih hn ho]

/-! ### Structural evaluation twins

`escapeScriptTagContent` and `unescapeU003c` are defined by well-founded
recursion (the replacement consumes nine, respectively six, characters
at once), which the kernel does not unfold; the following structurally
recursive scanners compute the same functions (the counter records how
many characters of the current match remain to be consumed) and are used
to evaluate them on concrete inputs. -/

theorem unescape_cons_else {c : Char} {cs : List Char}
    (h : ¬ ((c :: cs).take 6 = [bslash, 'u', '0', '0', '3', 'c'])) :
    unescapeU003c (c :: cs) = c :: unescapeU003c cs := by
  rw [unescapeU003c.eq_def]
  show (if (c :: cs).take 6 = [bslash, 'u', '0', '0', '3', 'c']
      then '<' :: unescapeU003c (cs.drop 5) else c :: unescapeU003c cs) = _
  rw [if_neg h]

/-- Structural twin of `escapeScriptTagContent`. -/
def escSkip : Nat → List Char → List Char
  | _, [] => []
  | 0, c :: cs =>
    if closeTagAt (c :: cs) then scriptCloseRepl ++ escSkip 8 cs
    else c :: escSkip 0 cs
  | k + 1, _ :: cs => escSkip k cs

theorem escSkip_shift (k : Nat) (cs : List Char) : escSkip k cs = escSkip 0 (cs.drop k) := by
  induction k generalizing cs with
  | zero => simp
  | succ k ih =>
    cases cs with
    | nil => rfl
    | cons c cs => rw [show escSkip (k + 1) (c :: cs) = escSkip k cs from rfl, ih]; simp

theorem escape_eq_escSkip (l : List Char) : escapeScriptTagContent l = escSkip 0 l := by
  induction l using escapeScriptTagContent.induct with
  | case1 => rw [escape_nil]; rfl
  | case2 c cs hc ih =>
    rw [escape_cons_match hc, ih, show escSkip 0 (c :: cs)
      = scriptCloseRepl ++ escSkip 8 cs from by simp [escSkip, hc], escSkip_shift 8 cs]
  | case3 c cs hc ih =>
    rw [escape_cons_else hc, ih, show escSkip 0 (c :: cs)
      = c :: escSkip 0 cs from by simp [escSkip, hc]]

/-- Structural twin of `unescapeU003c`. -/
def unescSkip : Nat → List Char → List Char
  | _, [] => []
  | 0, c :: cs =>
    if ((c :: cs).take 6) = [bslash, 'u', '0', '0', '3', 'c'] then
      '<' :: unescSkip 5 cs
    else c :: unescSkip 0 cs
  | k + 1, _ :: cs => unescSkip k cs

theorem unescSkip_shift (k : Nat) (cs : List Char) :
    unescSkip k cs = unescSkip 0 (cs.drop k) := by
  induction k generalizing cs with
  | zero => simp
  | succ k ih =>
    cases cs with
    | nil => rfl
    | cons c cs => rw [show unescSkip (k + 1) (c :: cs) = unescSkip k cs from rfl, ih]; simp

theorem unescape_eq_unescSkip (l : List Char) : unescapeU003c l = unescSkip 0 l := by
  induction l using unescapeU003c.induct with
  | case1 => rw [unescape_nil]; rfl
  | case2 c cs hc ih =>
    rw [show unescapeU003c (c :: cs) = '<' :: unescapeU003c (cs.drop 5) from by
        rw [unescapeU003c.eq_def]
        show (if (c :: cs).take 6 = [bslash, 'u', '0', '0', '3', 'c']
            then '<' :: unescapeU003c (cs.drop 5) else c :: unescapeU003c cs) = _
        rw [if_pos hc],
      ih, show unescSkip 0 (c :: cs) = '<' :: unescSkip 5 cs from by simp [unescSkip, hc],
      unescSkip_shift 5 cs]
  | case3 c cs hc ih =>
    rw [unescape_cons_else hc, ih, show unescSkip 0 (c :: cs)
      = c :: unescSkip 0 cs from by
        show (if (c :: cs).take 6 = [bslash, 'u', '0', '0', '3', 'c']
            then '<' :: unescSkip 5 cs else c :: unescSkip 0 cs) = _
        rw [if_neg hc]]

/-! ### Claim C4 -/

/-- Claim C4 fails as stated: on the input `</SCRIPT>` the escaper
produces the lowercase `\u003c/script>`, so decoding the inserted
escape yields `</script>`, which differs from the original input —
the round trip does not hold for every letter-case combination. -/
theorem claim_C4_counterexample :
    escapeScriptTagContent "</SCRIPT>".data = "\\u003c/script>".data ∧
    unescapeU003c (escapeScriptTagContent "</SCRIPT>".data) = "</script>".data ∧
    "</script>".data ≠ "</SCRIPT>".data := by
  have h1 : escapeScriptTagContent "</SCRIPT>".data = "\\u003c/script>".data := by
    rw [escape_eq_escSkip]; decide
  refine ⟨h1, ?_, by decide⟩
  rw [h1, unescape_eq_unescSkip]; decide

/-- Claim C4 (amended): for every string, `escapeScriptTagContent`
leaves no case-insensitive occurrence of `</script>` in its output and
is idempotent; replacing each inserted `\u003c` escape by `<` recovers
the original string exactly when the input contains no literal `\u003c`
text and every `</script>` occurrence in it is already lowercase (the
replacement lowercases the tag, so other casings round-trip only up to
letter case). -/
theorem claim_C4_amended (s : List Char) :
    hasScriptClose (escapeScriptTagContent s) = false ∧
    escapeScriptTagContent (escapeScriptTagContent s) = escapeScriptTagContent s ∧
    (noU003c s = true → onlyLowerCloses s = true →
      unescapeU003c (escapeScriptTagContent s) = s) :=
  ⟨hasScriptClose_escape s, escape_idem s, fun h1 h2 => unescape_escape s h1 h2⟩

/-- Witness for the amended claim C4 at the concrete input `a</script>b`. -/
theorem claim_C4_witness :
    noU003c "a</script>b".data = true ∧ onlyLowerCloses "a</script>b".data = true ∧
    unescapeU003c (escapeScriptTagContent "a</script>b".data) = "a</script>b".data :=
  ⟨by decide, by decide,
    (claim_C4_amended "a</script>b".data).2.2 (by decide) (by decide)⟩

/-! ### Claim C5 -/

/-- Claim C5: `escapeJsString` output, wrapped in double quotes and
evaluated as a JavaScript string literal, yields back exactly the
original string; the escaping follows the per-character table
`escJsChar` (backslash first, then quote, newline, carriage return,
tab, then remaining control characters as two-digit `\xHH`), and every
character above the control range other than `\` and `"` passes
through unchanged. -/
theorem claim_C5_roundtrip (s : List Char) :
    jsUnescape (escapeJsString s) = some s ∧
    escapeJsString s = s.flatMap escJsChar ∧
    (∀ c : Char, 31 < c.toNat → c ≠ bslash → c ≠ '"' → escJsChar c = [c]) := by
  refine ⟨jsUnescape_escapeJsString s, escapeJsString_eq_flatMap s, ?_⟩
  intro c h1 h2 h3
  have hn : c ≠ '\n' := by rintro rfl; exact absurd h1 (by decide)
  have hr : c ≠ '\r' := by rintro rfl; exact absurd h1 (by decide)
  have ht : c ≠ '\t' := by rintro rfl; exact absurd h1 (by decide)
  simp [escJsChar, escCtrl, h2, h3, hn, hr, ht, Nat.not_le.mpr h1]

/-- Witness for claim C5 at the concrete character `/` (URL characters
pass through unchanged). -/
theorem claim_C5_witness :
    31 < ('/' : Char).toNat ∧ escJsChar '/' = ['/'] :=
  ⟨by decide, (claim_C5_roundtrip []).2.2 '/' (by decide) (by decide) (by decide)⟩

/-! ### Substring and replacement lemmas for the template fill -/

theorem prefixBool_iff {l₁ l₂ : List Char} : l₁.isPrefixOf l₂ = true ↔ l₁ <+: l₂ :=
  List.isPrefixOf_iff_prefix

theorem suffixBool_iff {l₁ l₂ : List Char} : l₁.isSuffixOf l₂ = true ↔ l₁ <:+ l₂ :=
  List.isSuffixOf_iff_suffix

theorem prefix_append_self (b r : List Char) : b <+: b ++ r :=
  List.prefix_append b r

theorem prefix_of_le {l₁ l₂ l₃ : List Char} (h1 : l₁ <+: l₃) (h2 : l₂ <+: l₃)
    (h : l₁.length ≤ l₂.length) : l₁ <+: l₂ :=
  List.prefix_of_prefix_length_le h1 h2 h

/-- When the pattern fits inside the first summand, prefix testing
ignores the second summand. -/
theorem isPrefixOf_append_left {t b r : List Char} (h : t.length ≤ b.length) :
    t.isPrefixOf (b ++ r) = t.isPrefixOf b := by
  by_cases hb : t.isPrefixOf b = true
  · rw [hb, prefixBool_iff]
    exact (prefixBool_iff.mp hb).trans (prefix_append_self b r)
  · have hbr : ¬ t.isPrefixOf (b ++ r) = true := by
      intro hc
      exact hb (prefixBool_iff.mpr
        (prefix_of_le (prefixBool_iff.mp hc) (prefix_append_self b r) h))
    rw [Bool.not_eq_true] at hb hbr
    rw [hb, hbr]

theorem isPrefixOf_self_append (pat y : List Char) : pat.isPrefixOf (pat ++ y) = true :=
  prefixBool_iff.mpr (prefix_append_self pat y)

/-- A pattern longer than the first summand that is a prefix of the sum
splits: its first part is the whole first summand, the rest is a prefix
of the second summand. -/
theorem prefix_split {t b r : List Char} (h : t.isPrefixOf (b ++ r) = true)
    (hl : b.length < t.length) :
    t.take b.length = b ∧ (t.drop b.length).isPrefixOf r = true := by
  have hbt : b <+: t :=
    prefix_of_le (prefix_append_self b r) (prefixBool_iff.mp h) (Nat.le_of_lt hl)
  obtain ⟨t', ht'⟩ := hbt
  have htake : t.take b.length = b := by
    rw [← ht', List.take_left]
  have hdrop : t.drop b.length = t' := by
    rw [← ht', List.drop_left]
  refine ⟨htake, ?_⟩
  rw [hdrop, prefixBool_iff]
  obtain ⟨s, hs⟩ := prefixBool_iff.mp h
  rw [← ht'] at hs
  simp only [List.append_assoc] at hs
  exact ⟨s, by have := List.append_cancel_left hs; exact this⟩

/-- Replacement text without `$` is substituted literally. -/
theorem getSubstitution_eq_self {m b a v : List Char} (h : '$' ∉ v) :
    getSubstitution m b a v = v := by
  induction v with
  | nil => rfl
  | cons c cs ih =>
    have hc : ¬ c = '$' := fun hc => h (hc ▸ List.mem_cons_self c cs)
    have hcs : '$' ∉ cs := fun hm => h (List.mem_cons_of_mem c hm)
    rw [getSubstitution.eq_def]
    show (if c = '$' then _ else c :: getSubstitution m b a cs) = c :: cs
    rw [if_neg hc, ih hcs]

/-- The pattern has no self-overlap: no nonempty proper suffix of it is
one of its prefixes. -/
def noBorder (pat : List Char) : Bool :=
  (List.range pat.length).all (fun k => decide (k = 0) || !((pat.drop k).isPrefixOf pat))

theorem noBorder_spec {pat : List Char} (h : noBorder pat = true) :
    ∀ k, 1 ≤ k → k < pat.length → (pat.drop k).isPrefixOf pat = false := by
  intro k h1 h2
  have := (List.all_eq_true.mp h) k (List.mem_range.mpr h2)
  simp only [Bool.or_eq_true, decide_eq_true_eq] at this
  rcases this with h0 | hn
  · omega
  · simpa using hn

theorem containsSub_cons_tail {pat : List Char} {c : Char} {cs : List Char}
    (h : containsSub pat cs = true) : containsSub pat (c :: cs) = true := by
  simp [containsSub, h]

theorem containsSub_cons_head {pat : List Char} {c : Char} {cs : List Char}
    (h : pat.isPrefixOf (c :: cs) = true) : containsSub pat (c :: cs) = true := by
  simp [containsSub, h]

theorem containsSub_false_head {pat : List Char} {c : Char} {cs : List Char}
    (h : containsSub pat (c :: cs) = false) : pat.isPrefixOf (c :: cs) = false := by
  simp only [containsSub, Bool.or_eq_false_iff] at h
  exact h.1

theorem containsSub_false_tail {pat : List Char} {c : Char} {cs : List Char}
    (h : containsSub pat (c :: cs) = false) : containsSub pat cs = false := by
  simp only [containsSub, Bool.or_eq_false_iff] at h
  exact h.2

/-- Position of the first occurrence of a borderless pattern placed
after occurrence-free text. -/
theorem findFirst_exact {pat : List Char} (x y : List Char) (hpat : pat ≠ [])
    (hnb : noBorder pat = true) (hx : containsSub pat x = false) :
    findFirst pat (x ++ (pat ++ y)) = some x.length := by
  induction x with
  | nil =>
    rcases pat with _ | ⟨p0, pt⟩
    · exact absurd rfl hpat
    · simp only [List.nil_append, List.length_nil]
      rw [show (p0 :: pt) ++ y = p0 :: (pt ++ y) from rfl]
      simp [findFirst, show (p0 :: pt).isPrefixOf (p0 :: pt ++ y) = true from
        isPrefixOf_self_append (p0 :: pt) y]
  | cons c x' ih =>
    have hx' : containsSub pat x' = false := containsSub_false_tail hx
    have hnp : pat.isPrefixOf (c :: (x' ++ (pat ++ y))) = false := by
      by_contra hcon
      rw [Bool.not_eq_false] at hcon
      rw [show c :: (x' ++ (pat ++ y)) = (c :: x') ++ (pat ++ y) from rfl] at hcon
      by_cases hl : pat.length ≤ (c :: x').length
      · rw [isPrefixOf_append_left hl] at hcon
        rw [containsSub_cons_head hcon] at hx
        exact Bool.true_eq_false.mp hx
      · have hsplit := prefix_split hcon (Nat.lt_of_not_le hl)
        have hk := hsplit.2
        have hlen : (pat.drop (c :: x').length).length ≤ pat.length := by
          simp [List.length_drop]
        rw [isPrefixOf_append_left hlen] at hk
        have hnbk := noBorder_spec hnb (c :: x').length (by simp) (Nat.lt_of_not_le hl)
        rw [hnbk] at hk
        exact absurd hk (by simp)
    rw [show (c :: x') ++ (pat ++ y) = c :: (x' ++ (pat ++ y)) from rfl]
    simp [findFirst, hnp, ih hx', List.length_cons]

/-- The first `replace` of a borderless pattern placed after
occurrence-free text, with a `$`-free replacement, substitutes exactly
that occurrence. -/
theorem replaceJS_exact {pat : List Char} (x y v : List Char) (hpat : pat ≠ [])
    (hnb : noBorder pat = true) (hx : containsSub pat x = false) (hv : '$' ∉ v) :
    replaceJS (x ++ (pat ++ y)) pat v = x ++ (v ++ y) := by
  have htake : (x ++ (pat ++ y)).take x.length = x := List.take_left x (pat ++ y)
  have hdrop : (x ++ (pat ++ y)).drop (x.length + pat.length) = y := by
    rw [List.drop_append pat.length, List.drop_left]
  unfold replaceJS
  rw [findFirst_exact x y hpat hnb hx]
  show ((x ++ (pat ++ y)).take x.length
      ++ getSubstitution pat ((x ++ (pat ++ y)).take x.length)
        ((x ++ (pat ++ y)).drop (x.length + pat.length)) v
      ++ (x ++ (pat ++ y)).drop (x.length + pat.length)) = x ++ (v ++ y)
  rw [htake, hdrop, getSubstitution_eq_self hv, List.append_assoc]

theorem suffixBool_cons {t : List Char} {c : Char} {p : List Char}
    (h : t.isSuffixOf p = true) : t.isSuffixOf (c :: p) = true := by
  rw [suffixBool_iff] at h ⊢
  exact h.trans (List.suffix_cons c p)

/-- An occurrence in a concatenation lies in the first part, lies in the
second part, or straddles the boundary. -/
theorem containsSub_append_split {pat p q : List Char}
    (h : containsSub pat (p ++ q) = true) :
    containsSub pat p = true ∨ containsSub pat q = true ∨
    ∃ k, 1 ≤ k ∧ k < pat.length ∧ (pat.take k).isSuffixOf p = true ∧
      (pat.drop k).isPrefixOf q = true := by
  induction p with
  | nil =>
    right; left; simpa using h
  | cons c p' ih =>
    rw [show (c :: p') ++ q = c :: (p' ++ q) from rfl] at h
    simp only [containsSub, Bool.or_eq_true] at h
    rcases h with hp | ht
    · by_cases hl : pat.length ≤ (c :: p').length
      · left
        rw [show c :: (p' ++ q) = (c :: p') ++ q from rfl, isPrefixOf_append_left hl] at hp
        exact containsSub_cons_head hp
      · right; right
        rw [show c :: (p' ++ q) = (c :: p') ++ q from rfl] at hp
        have hsplit := prefix_split hp (Nat.lt_of_not_le hl)
        refine ⟨(c :: p').length, by simp, Nat.lt_of_not_le hl, ?_, hsplit.2⟩
        rw [hsplit.1, suffixBool_iff]
    · rcases ih ht with hin | hin | ⟨k, hk1, hk2, hk3, hk4⟩
      · exact Or.inl (containsSub_cons_tail hin)
      · exact Or.inr (Or.inl hin)
      · exact Or.inr (Or.inr ⟨k, hk1, hk2, suffixBool_cons hk3, hk4⟩)

theorem containsSub_append_false {pat p q : List Char}
    (hp : containsSub pat p = false) (hq : containsSub pat q = false)
    (hs : ∀ k, 1 ≤ k → k < pat.length →
      ¬((pat.take k).isSuffixOf p = true ∧ (pat.drop k).isPrefixOf q = true)) :
    containsSub pat (p ++ q) = false := by
  by_contra hcon
  rw [Bool.not_eq_false] at hcon
  rcases containsSub_append_split hcon with h | h | ⟨k, hk1, hk2, hk3, hk4⟩
  · rw [hp] at h; exact absurd h (by simp)
  · rw [hq] at h; exact absurd h (by simp)
  · exact hs k hk1 hk2 ⟨hk3, hk4⟩

/-- Occurrence of a pattern forces occurrence of any prefix of it. -/
theorem containsSub_sub {pat pat' v : List Char} (hpp : pat' <+: pat)
    (h : containsSub pat v = true) : containsSub pat' v = true := by
  induction v with
  | nil =>
    simp only [containsSub] at h ⊢
    rw [prefixBool_iff] at h ⊢
    exact hpp.trans h
  | cons c cs ih =>
    simp only [containsSub, Bool.or_eq_true] at h ⊢
    rcases h with h | h
    · exact Or.inl (prefixBool_iff.mpr (hpp.trans (prefixBool_iff.mp h)))
    · exact Or.inr (ih h)

theorem containsSub_append_right_self {t : List Char} (hne : t ≠ []) (r : List Char) :
    containsSub t (r ++ t) = true := by
  induction r with
  | nil =>
    rcases t with _ | ⟨t0, ts⟩
    · exact absurd rfl hne
    · rw [List.nil_append]
      exact containsSub_cons_head (prefixBool_iff.mpr (List.prefix_rfl))
  | cons c r' ih =>
    rw [List.cons_append]
    exact containsSub_cons_tail ih

theorem containsSub_of_isSuffixOf {t v : List Char} (hne : t ≠ [])
    (h : t.isSuffixOf v = true) : containsSub t v = true := by
  obtain ⟨r, hr⟩ := suffixBool_iff.mp h
  rw [← hr]
  exact containsSub_append_right_self hne r

/-- A pattern whose head is missing from a string does not occur in it. -/
theorem containsSub_false_of_head {pat v : List Char} {ch : Char}
    (hh : pat.head? = some ch) (hv : ch ∉ v) : containsSub pat v = false := by
  induction v with
  | nil =>
    rcases pat with _ | ⟨p0, pt⟩
    · simp at hh
    · simp [containsSub]
  | cons c cs ih =>
    have hv' : ch ∉ cs := fun hm => hv (List.mem_cons_of_mem c hm)
    have hhead : pat.isPrefixOf (c :: cs) = false := by
      by_contra hcon
      rw [Bool.not_eq_false] at hcon
      rcases pat with _ | ⟨p0, pt⟩
      · simp at hh
      · obtain ⟨r, hr⟩ := prefixBool_iff.mp hcon
        simp only [List.head?_cons, Option.some.injEq] at hh
        have hc : c = ch := by
          have hcp := List.head_eq_of_cons_eq hr.symm
          exact hcp.trans hh
        exact hv (hc ▸ List.mem_cons_self c cs)
    simp [containsSub, hhead, ih hv']

/-- No nonempty proper prefix of the pattern is a suffix of `p`
(checked by evaluation for concrete `p`). -/
def noTakeSuffix (pat p : List Char) : Bool :=
  (List.range pat.length).all (fun k => decide (k = 0) || !((pat.take k).isSuffixOf p))

theorem noTakeSuffix_spec {pat p : List Char} (h : noTakeSuffix pat p = true) :
    ∀ k, 1 ≤ k → k < pat.length → (pat.take k).isSuffixOf p = false := by
  intro k h1 h2
  have := (List.all_eq_true.mp h) k (List.mem_range.mpr h2)
  simp only [Bool.or_eq_true, decide_eq_true_eq] at this
  rcases this with h0 | hn
  · omega
  · simpa using hn

theorem take2_shape {l : List Char} {x y : Char} (h : l.take 2 = [x, y]) :
    l = x :: y :: l.drop 2 := by
  rcases l with _ | ⟨a, _ | ⟨b, rest⟩⟩ <;> simp_all

/-- Straddle elimination at a boundary whose left side is a value free
of `[[` and whose right side starts with a character other than `[`:
no occurrence of a placeholder (a pattern starting with `[[`) can cross
such a boundary. -/
theorem straddle_kill_value {pat v q : List Char}
    (hp2 : pat.take 2 = ['[', '['])
    (hv : containsSub ['[', '['] v = false)
    (hqh : ∀ hd, q.head? = some hd → ¬ hd = '[') :
    ∀ k, 1 ≤ k → k < pat.length →
      ¬((pat.take k).isSuffixOf v = true ∧ (pat.drop k).isPrefixOf q = true) := by
  intro k h1 h2 ⟨hsuf, hpre⟩
  have hshape : pat = '[' :: '[' :: pat.drop 2 := take2_shape hp2
  by_cases hk1 : k = 1
  · subst hk1
    have hdrop1 : pat.drop 1 = '[' :: pat.drop 2 := by
      conv_lhs => rw [hshape]
      rfl
    rw [hdrop1] at hpre
    obtain ⟨r, hr⟩ := prefixBool_iff.mp hpre
    have : q.head? = some '[' := by rw [← hr]; rfl
    exact hqh '[' this rfl
  · have hk2 : 2 ≤ k := by omega
    have htk2 : (pat.take k).take 2 = ['[', '['] := by
      rw [List.take_take, show min 2 k = 2 from by omega, hp2]
    have hne : pat.take k ≠ [] := by
      intro hnil
      rw [hnil] at htk2
      simp at htk2
    have hocc : containsSub (pat.take k) v = true := containsSub_of_isSuffixOf hne hsuf
    have : containsSub ['[', '['] v = true :=
      containsSub_sub (htk2 ▸ List.take_prefix 2 (pat.take k)) hocc
    rw [hv] at this
    exact absurd this (by simp)

/-- Straddle elimination for patterns starting with `<` at a boundary
whose left side contains no `<`. -/
theorem straddle_kill_lt {pat v q : List Char}
    (hph : pat.head? = some '<') (hv : '<' ∉ v) :
    ∀ k, 1 ≤ k → k < pat.length →
      ¬((pat.take k).isSuffixOf v = true ∧ (pat.drop k).isPrefixOf q = true) := by
  intro k h1 h2 ⟨hsuf, _⟩
  rcases pat with _ | ⟨p0, pt⟩
  · simp at hph
  · simp only [List.head?_cons, Option.some.injEq] at hph
    have htk : (p0 :: pt).take k = p0 :: pt.take (k - 1) := by
      rcases k with _ | k'
      · omega
      · simp [List.take_succ_cons]
    rw [htk] at hsuf
    have hmem : p0 ∈ v := (suffixBool_iff.mp hsuf).subset (List.mem_cons_self _ _)
    rw [hph] at hmem
    exact hv hmem

/-! ### Occurrence counting -/

theorem countOcc_append {pat p q : List Char} (hpat : pat ≠ [])
    (hs : ∀ k, 1 ≤ k → k < pat.length →
      ¬((pat.take k).isSuffixOf p = true ∧ (pat.drop k).isPrefixOf q = true)) :
    countOcc pat (p ++ q) = countOcc pat p + countOcc pat q := by
  induction p with
  | nil => simp [countOcc]
  | cons c p' ih =>
    have hs' : ∀ k, 1 ≤ k → k < pat.length →
        ¬((pat.take k).isSuffixOf p' = true ∧ (pat.drop k).isPrefixOf q = true) := by
      intro k h1 h2 ⟨h3, h4⟩
      exact hs k h1 h2 ⟨suffixBool_cons h3, h4⟩
    have hhead : pat.isPrefixOf (c :: (p' ++ q)) = pat.isPrefixOf (c :: p') := by
      by_cases hl : pat.length ≤ (c :: p').length
      · rw [show c :: (p' ++ q) = (c :: p') ++ q from rfl]
        exact isPrefixOf_append_left hl
      · have hl' := Nat.lt_of_not_le hl
        have hright : pat.isPrefixOf (c :: p') = false := by
          by_contra hcon
          rw [Bool.not_eq_false] at hcon
          have := (prefixBool_iff.mp hcon).length_le
          simp only [List.length_cons] at this hl'
          omega
        have hleft : pat.isPrefixOf (c :: (p' ++ q)) = false := by
          by_contra hcon
          rw [Bool.not_eq_false] at hcon
          rw [show c :: (p' ++ q) = (c :: p') ++ q from rfl] at hcon
          have hsplit := prefix_split hcon hl'
          refine hs (c :: p').length (by simp) hl' ⟨?_, hsplit.2⟩
          rw [hsplit.1, suffixBool_iff]
        rw [hleft, hright]
    rw [show (c :: p') ++ q = c :: (p' ++ q) from rfl]
    simp only [countOcc, hhead, ih hs']
    omega

theorem countOcc_append_concrete {pat p q : List Char} (hpat : pat ≠ [])
    (hts : noTakeSuffix pat p = true) :
    countOcc pat (p ++ q) = countOcc pat p + countOcc pat q :=
  countOcc_append hpat (fun k h1 h2 ⟨h3, _⟩ => by
    rw [noTakeSuffix_spec hts k h1 h2] at h3
    exact absurd h3 (by simp))

theorem countOcc_append_value_lt {pat p q : List Char} (hpat : pat ≠ [])
    (hph : pat.head? = some '<') (hv : '<' ∉ p) :
    countOcc pat (p ++ q) = countOcc pat p + countOcc pat q :=
  countOcc_append hpat (straddle_kill_lt hph hv)

theorem countOcc_zero_of_head {pat v : List Char} {ch : Char}
    (hh : pat.head? = some ch) (hv : ch ∉ v) : countOcc pat v = 0 := by
  induction v with
  | nil => rfl
  | cons c cs ih =>
    have hv' : ch ∉ cs := fun hm => hv (List.mem_cons_of_mem c hm)
    have hhead : pat.isPrefixOf (c :: cs) = false :=
      containsSub_false_head (containsSub_false_of_head hh hv)
    simp [countOcc, hhead, ih hv']

/-! ### The template fill on benign values -/

/-- A substituted value is benign for the template fill when it contains
neither the placeholder opener `[[` nor the replacement-pattern
character `$`. -/
def goodVal (v : List Char) : Bool :=
  !(containsSub ['[', '['] v) && !(decide ('$' ∈ v))

theorem goodVal_no_brack {v : List Char} (h : goodVal v = true) :
    containsSub ['[', '['] v = false := by
  simp only [goodVal, Bool.and_eq_true, Bool.not_eq_true'] at h
  exact h.1

theorem goodVal_no_dollar {v : List Char} (h : goodVal v = true) : '$' ∉ v := by
  simp only [goodVal, Bool.and_eq_true, Bool.not_eq_true', decide_eq_false_iff_not] at h
  exact h.2

theorem goodVal_no_pat {pat v : List Char} (hp2 : pat.take 2 = ['[', '['])
    (h : goodVal v = true) : containsSub pat v = false := by
  by_contra hcon
  rw [Bool.not_eq_false] at hcon
  have := containsSub_sub (hp2 ▸ List.take_prefix 2 pat) hcon
  rw [goodVal_no_brack h] at this
  exact absurd this (by simp)

/-- No placeholder occurrence in `A ++ (v ++ R)` for concrete `A`, a
benign value `v`, and a remainder `R` that starts with a character
other than `[` and itself contains no occurrence. -/
theorem containsSub_seg_val_false {pat A v R : List Char}
    (hp2 : pat.take 2 = ['[', '['])
    (hA : containsSub pat A = false)
    (hAs : noTakeSuffix pat A = true)
    (hv : goodVal v = true)
    (hRh : ∃ hd, R.head? = some hd ∧ ¬ hd = '[')
    (hR : containsSub pat R = false) :
    containsSub pat (A ++ (v ++ R)) = false := by
  apply containsSub_append_false hA
  · apply containsSub_append_false (goodVal_no_pat hp2 hv) hR
    obtain ⟨hd, hhd, hneq⟩ := hRh
    refine straddle_kill_value hp2 (goodVal_no_brack hv) ?_
    intro d hd2 hdeq
    rw [hhd] at hd2
    injection hd2 with hde
    exact hneq (hde.trans hdeq)
  · intro k h1 h2 ⟨h3, _⟩
    rw [noTakeSuffix_spec hAs k h1 h2] at h3
    exact absurd h3 (by simp)

/-- Filling the template with benign escaped values substitutes each
placeholder exactly once, in source order, and reproduces the five
skeleton segments byte for byte around the four values. -/
theorem fillTemplate_eq (t u n o : List Char)
    (ht : goodVal t = true) (hu : goodVal u = true)
    (hn : goodVal n = true) (ho : goodVal o = true) :
    fillTemplate t u n o
      = seg0 ++ (t ++ (seg1 ++ (n ++ (seg2 ++ (u ++ (seg3 ++ (o ++ seg4))))))) := by
  have hhtml : html = seg0 ++ (ttlPat ++ (seg1 ++ (noncePat
      ++ (seg2 ++ (specPat ++ (seg3 ++ (optPat ++ seg4))))))) := by
    rw [html_decomp]
    simp [List.append_assoc]
  have h1 : replaceJS html ttlPat t
      = seg0 ++ (t ++ (seg1 ++ (noncePat ++ (seg2 ++ (specPat
        ++ (seg3 ++ (optPat ++ seg4))))))) := by
    rw [hhtml]
    exact replaceJS_exact seg0 _ t (by decide) (by decide) (by decide)
      (goodVal_no_dollar ht)
  have hassoc2 : seg0 ++ (t ++ (seg1 ++ (noncePat ++ (seg2 ++ (specPat
        ++ (seg3 ++ (optPat ++ seg4)))))))
      = (seg0 ++ (t ++ (seg1 ++ (noncePat ++ seg2))))
        ++ (specPat ++ (seg3 ++ (optPat ++ seg4))) := by
    simp [List.append_assoc]
  have hx2 : containsSub specPat (seg0 ++ (t ++ (seg1 ++ (noncePat ++ seg2))))
      = false := by
    refine containsSub_seg_val_false (by decide) (by decide) (by decide) ht
      ⟨'<', ?_, by decide⟩ (by decide)
    rw [List.head?_append_of_ne_nil _ (by decide)]
    decide
  have h2 : replaceJS (replaceJS html ttlPat t) specPat u
      = (seg0 ++ (t ++ (seg1 ++ (noncePat ++ seg2))))
        ++ (u ++ (seg3 ++ (optPat ++ seg4))) := by
    rw [h1, hassoc2]
    exact replaceJS_exact _ _ u (by decide) (by decide) hx2 (goodVal_no_dollar hu)
  have hassoc3 : (seg0 ++ (t ++ (seg1 ++ (noncePat ++ seg2))))
        ++ (u ++ (seg3 ++ (optPat ++ seg4)))
      = (seg0 ++ (t ++ seg1))
        ++ (noncePat ++ (seg2 ++ (u ++ (seg3 ++ (optPat ++ seg4))))) := by
    simp [List.append_assoc]
  have hx3 : containsSub noncePat (seg0 ++ (t ++ seg1)) = false := by
    refine containsSub_seg_val_false (by decide) (by decide) (by decide) ht
      ⟨'<', by decide, by decide⟩ (by decide)
  have h3 : replaceJS (replaceJS (replaceJS html ttlPat t) specPat u) noncePat n
      = (seg0 ++ (t ++ seg1))
        ++ (n ++ (seg2 ++ (u ++ (seg3 ++ (optPat ++ seg4))))) := by
    rw [h2, hassoc3]
    exact replaceJS_exact _ _ n (by decide) (by decide) hx3 (goodVal_no_dollar hn)
  have hassoc4 : (seg0 ++ (t ++ seg1))
        ++ (n ++ (seg2 ++ (u ++ (seg3 ++ (optPat ++ seg4)))))
      = (seg0 ++ (t ++ (seg1 ++ (n ++ (seg2 ++ (u ++ seg3))))))
        ++ (optPat ++ seg4) := by
    simp [List.append_assoc]
  have hR2 : containsSub optPat (seg2 ++ (u ++ seg3)) = false := by
    refine containsSub_seg_val_false (by decide) (by decide) (by decide) hu
      ⟨'"', by decide, by decide⟩ (by decide)
  have hR1 : containsSub optPat (seg1 ++ (n ++ (seg2 ++ (u ++ seg3)))) = false := by
    refine containsSub_seg_val_false (by decide) (by decide) (by decide) hn
      ⟨Char.ofNat 39, ?_, by decide⟩ hR2
    rw [List.head?_append_of_ne_nil _ (by decide)]
    decide
  have hx4 : containsSub optPat
      (seg0 ++ (t ++ (seg1 ++ (n ++ (seg2 ++ (u ++ seg3)))))) = false := by
    refine containsSub_seg_val_false (by decide) (by decide) (by decide) ht
      ⟨'<', ?_, by decide⟩ hR1
    rw [List.head?_append_of_ne_nil _ (by decide)]
    decide
  have h4 : fillTemplate t u n o
      = (seg0 ++ (t ++ (seg1 ++ (n ++ (seg2 ++ (u ++ seg3))))))
        ++ (o ++ seg4) := by
    rw [fillTemplate, h3, hassoc4]
    exact replaceJS_exact _ _ o (by decide) (by decide) hx4 (goodVal_no_dollar ho)
  rw [h4]
  simp [List.append_assoc]

/-- Rewrites the renderer with the structural escape twin, for
evaluation on concrete inputs. -/
theorem redocHtmlSync_eval (t u n : List Char) (o : Json) :
    redocHtmlSync t u n o
      = fillTemplate (safeTitle t) (escSkip 0 (escapeJsString u)) (safeNonce n)
        (escSkip 0 (jsonStringify o)) := by
  simp only [redocHtmlSync, safeSpecUrl, safeOptions, escape_eq_escSkip]

/-! ### Claim C1 -/

/-- Claim C1 fails as stated: when the supplied title is the literal
text `[[spec-url]]`, the later spec-url substitution re-matches the
already-substituted title content — the spec URL `u` ends up inside the
`<title>` element, and the template's real `[[spec-url]]` placeholder
survives verbatim in the output. -/
theorem claim_C1_counterexample :
    containsSub "<title>u</title>".data
      (redocHtmlSync "[[spec-url]]".data "u".data [] (Json.obj [])) = true ∧
    containsSub "[[spec-url]]".data
      (redocHtmlSync "[[spec-url]]".data "u".data [] (Json.obj [])) = true := by
  rw [redocHtmlSync_eval]
  exact ⟨by decide, by decide⟩

/-- Claim C1 (amended): the fill performs exactly one substitution per
placeholder and reproduces every byte of the fixed skeleton, for every
configuration whose four escaped values are benign — free of the
placeholder opener `[[` and of the `$` replacement patterns of
JavaScript `String.replace`.  (The counterexample shows the guarantee
cannot cover values carrying placeholder-shaped text.) -/
theorem claim_C1_amended (title specUrl nonce : List Char) (redocOptions : Json)
    (ht : goodVal (safeTitle title) = true)
    (hu : goodVal (safeSpecUrl specUrl) = true)
    (hn : goodVal (safeNonce nonce) = true)
    (ho : goodVal (safeOptions redocOptions) = true) :
    redocHtmlSync title specUrl nonce redocOptions
      = seg0 ++ (safeTitle title ++ (seg1 ++ (safeNonce nonce ++ (seg2
        ++ (safeSpecUrl specUrl ++ (seg3 ++ (safeOptions redocOptions ++ seg4))))))) :=
  fillTemplate_eq _ _ _ _ ht hu hn ho

/-- Witness for the amended claim C1 at a concrete configuration. -/
theorem claim_C1_witness :
    redocHtmlSync "My API".data "/spec.json".data "abc123".data
        (Json.obj [("x".data, Json.str "y".data)])
      = seg0 ++ (safeTitle "My API".data ++ (seg1 ++ (safeNonce "abc123".data ++ (seg2
        ++ (safeSpecUrl "/spec.json".data ++ (seg3
          ++ (safeOptions (Json.obj [("x".data, Json.str "y".data)]) ++ seg4))))))) := by
  refine claim_C1_amended _ _ _ _ (by decide) ?_ (by decide) ?_
  · rw [show safeSpecUrl "/spec.json".data
        = escSkip 0 (escapeJsString "/spec.json".data) from by
      simp only [safeSpecUrl, escape_eq_escSkip]]
    decide
  · rw [show safeOptions (Json.obj [("x".data, Json.str "y".data)])
        = escSkip 0 (jsonStringify (Json.obj [("x".data, Json.str "y".data)])) from by
      simp only [safeOptions, escape_eq_escSkip]]
    decide

/-! ### Claim C2 -/

/-- The per-character table realised by the title pipeline
`xss.escapeHtml(title.replace(/&/g, '&amp;'))`: ampersand first, then
`<` and `>`; every other character, including `"` and the apostrophe,
passes through unchanged. -/
def escTitleChar (c : Char) : List Char :=
  if c = '&' then "&amp;".data
  else if c = '<' then "&lt;".data
  else if c = '>' then "&gt;".data
  else [c]

theorem replaceChar_eq_flatMap (a : Char) (r s : List Char) :
    replaceChar a r s = s.flatMap (fun c => if c = a then r else [c]) := by
  induction s with
  | nil => rfl
  | cons c cs ih => simp [replaceChar, ih]

theorem safeTitle_eq_flatMap (t : List Char) :
    safeTitle t = t.flatMap escTitleChar := by
  simp only [safeTitle, Xss.escapeHtml, replaceChar_eq_flatMap, List.flatMap_assoc]
  refine congrArg t.flatMap (funext fun c => ?_)
  by_cases h1 : c = '&'
  · subst h1; rfl
  · by_cases h2 : c = '<'
    · subst h2; rfl
    · by_cases h3 : c = '>'
      · subst h3; rfl
      · simp [escTitleChar, h1, h2, h3]

/-- Modelled from the spec: `escapeHtmlText(s)` as the spec describes
it — escape `&` first, then `<`, `>`, `"`, `'` to their entities.
Defined only to compare the claimed behaviour with the code's. -/
def specEscapeHtmlText (s : List Char) : List Char :=
  s.flatMap (fun c =>
    if c = '&' then "&amp;".data
    else if c = '<' then "&lt;".data
    else if c = '>' then "&gt;".data
    else if c = '"' then "&quot;".data
    else if c = squote then "&#39;".data
    else [c])

/-- Claim C2 fails as stated: a double quote in the title is left
unescaped by the code (the `xss` escaper only handles `<` and `>`),
while the claim demands the entity `&quot;` — the rendered document
carries the raw quote inside the `<title>` element. -/
theorem claim_C2_counterexample :
    containsSub "<title>\"</title>".data
      (redocHtmlSync "\"".data "u".data [] (Json.obj [])) = true ∧
    specEscapeHtmlText "\"".data = "&quot;".data ∧
    safeTitle "\"".data = "\"".data ∧
    "\"".data ≠ "&quot;".data := by
  refine ⟨?_, by decide, by decide, by decide⟩
  rw [redocHtmlSync_eval]
  decide

/-- Claim C2 (amended): the title content is the title with `&` escaped
first (to `&amp;`) and then `<`, `>` replaced by `&lt;`, `&gt;`; the
single-pass table `escTitleChar` realises exactly this order (so no
double-escaping occurs), and `"` and `'` pass through unchanged.  When
the escaped title is benign for the fill, it is placed verbatim between
`<title>` and `</title>` in the rendered document. -/
theorem claim_C2_amended (title : List Char) :
    safeTitle title = title.flatMap escTitleChar ∧
    escTitleChar '"' = ['"'] ∧
    escTitleChar squote = [squote] ∧
    (goodVal (safeTitle title) = true →
      redocHtmlSync title "u".data [] (Json.obj [])
        = seg0 ++ (safeTitle title ++ (seg1 ++ (safeNonce [] ++ (seg2
          ++ (safeSpecUrl "u".data ++ (seg3
            ++ (safeOptions (Json.obj []) ++ seg4)))))))) := by
  refine ⟨safeTitle_eq_flatMap title, by decide, by decide, fun ht => ?_⟩
  show fillTemplate (safeTitle title) (safeSpecUrl "u".data) (safeNonce [])
      (safeOptions (Json.obj [])) = _
  refine fillTemplate_eq _ _ _ _ ht ?_ (by decide) ?_
  · rw [show safeSpecUrl "u".data = escSkip 0 (escapeJsString "u".data) from by
      simp only [safeSpecUrl, escape_eq_escSkip]]
    decide
  · rw [show safeOptions (Json.obj []) = escSkip 0 (jsonStringify (Json.obj [])) from by
      simp only [safeOptions, escape_eq_escSkip]]
    decide

/-- Witness for the amended claim C2 at a concrete title carrying all
five special characters. -/
theorem claim_C2_witness :
    goodVal (safeTitle "A&B<C>\"\x27".data) = true ∧
    safeTitle "A&B<C>\"\x27".data = "A&amp;B&lt;C&gt;\"\x27".data ∧
    redocHtmlSync "A&B<C>\"\x27".data "u".data [] (Json.obj [])
      = seg0 ++ (safeTitle "A&B<C>\"\x27".data ++ (seg1 ++ (safeNonce [] ++ (seg2
        ++ (safeSpecUrl "u".data ++ (seg3
          ++ (safeOptions (Json.obj []) ++ seg4))))))) := by
  refine ⟨by decide, by decide, (claim_C2_amended "A&B<C>\"\x27".data).2.2.2 (by decide)⟩

/-! ### Claim C3 -/

theorem replaceChar_not_mem_self {a : Char} {r : List Char} (h : a ∉ r) (s : List Char) :
    a ∉ replaceChar a r s := by
  induction s with
  | nil => simp [replaceChar]
  | cons c cs ih =>
    simp only [replaceChar, List.mem_append]
    rintro (hm | hm)
    · by_cases hc : c = a
      · rw [if_pos hc] at hm; exact h hm
      · rw [if_neg hc] at hm
        simp only [List.mem_singleton] at hm
        exact hc (hm ▸ rfl)
    · exact ih hm

theorem replaceChar_not_mem {c a : Char} {r s : List Char} (hs : c ∉ s) (hr : c ∉ r) :
    c ∉ replaceChar a r s := by
  induction s with
  | nil => simp [replaceChar]
  | cons d ds ih =>
    have hd : c ≠ d := fun he => hs (he ▸ List.mem_cons_self d ds)
    have hds : c ∉ ds := fun hm => hs (List.mem_cons_of_mem d hm)
    simp only [replaceChar, List.mem_append]
    rintro (hm | hm)
    · by_cases hdc : d = a
      · rw [if_pos hdc] at hm; exact hr hm
      · rw [if_neg hdc] at hm
        simp only [List.mem_singleton] at hm
        exact hd hm
    · exact ih hds hm

/-- The escaped title never contains a raw `<`. -/
theorem lt_not_mem_safeTitle (t : List Char) : '<' ∉ safeTitle t := by
  unfold safeTitle Xss.escapeHtml
  exact replaceChar_not_mem (replaceChar_not_mem_self (by decide) _) (by decide)

/-- The escaped nonce never contains a raw `<`. -/
theorem lt_not_mem_safeNonce (n : List Char) : '<' ∉ safeNonce n := by
  unfold safeNonce Xss.escapeAttrValue Xss.escapeHtml
  exact replaceChar_not_mem
    (replaceChar_not_mem (replaceChar_not_mem_self (by decide) _) (by decide)) (by decide)

/-- Occurrence count of a `<`-headed pattern in the filled document:
values free of `<` contribute nothing, so the count is the sum over the
five skeleton segments. -/
theorem countOcc_filled {pat : List Char} (hpat : pat ≠ []) (hph : pat.head? = some '<')
    {v1 v2 v3 v4 : List Char}
    (h1 : '<' ∉ v1) (h2 : '<' ∉ v2) (h3 : '<' ∉ v3) (h4 : '<' ∉ v4)
    (hs0 : noTakeSuffix pat seg0 = true) (hs1 : noTakeSuffix pat seg1 = true)
    (hs2 : noTakeSuffix pat seg2 = true) (hs3 : noTakeSuffix pat seg3 = true) :
    countOcc pat (seg0 ++ (v1 ++ (seg1 ++ (v3 ++ (seg2 ++ (v2 ++ (seg3 ++ (v4 ++ seg4))))))))
      = countOcc pat seg0 + countOcc pat seg1 + countOcc pat seg2
        + countOcc pat seg3 + countOcc pat seg4 := by
  rw [countOcc_append_concrete hpat hs0, countOcc_append_value_lt hpat hph h1,
    countOcc_append_concrete hpat hs1, countOcc_append_value_lt hpat hph h3,
    countOcc_append_concrete hpat hs2, countOcc_append_value_lt hpat hph h2,
    countOcc_append_concrete hpat hs3, countOcc_append_value_lt hpat hph h4,
    countOcc_zero_of_head hph h1, countOcc_zero_of_head hph h2,
    countOcc_zero_of_head hph h3, countOcc_zero_of_head hph h4]
  omega

/-- Claim C3 fails as stated: the spec URL `<script` passes through the
JavaScript-string escaper untouched (only `</script>` is neutralised),
so the base document contains three `<script` openings instead of two. -/
theorem claim_C3_counterexample :
    countOcc "<script".data
      (redocHtmlSync "API".data "<script".data [] (Json.obj [])) = 3 := by
  rw [redocHtmlSync_eval]
  decide

/-- Claim C3 (amended): for every configuration whose escaped values are
benign for the fill and whose escaped spec URL and serialised options
contain no raw `<` (the title and nonce escapers already guarantee
this for their values), the base document starts with `<!DOCTYPE html>`,
has a single `<title>`/`</title>` pair, exactly two `<script` openings,
and balanced `<html>`, `<head>`, `<body>` tags. -/
theorem claim_C3_amended (title specUrl nonce : List Char) (redocOptions : Json)
    (ht : goodVal (safeTitle title) = true)
    (hu : goodVal (safeSpecUrl specUrl) = true)
    (hn : goodVal (safeNonce nonce) = true)
    (ho : goodVal (safeOptions redocOptions) = true)
    (hu2 : '<' ∉ safeSpecUrl specUrl)
    (ho2 : '<' ∉ safeOptions redocOptions) :
    "<!DOCTYPE html>".data.isPrefixOf
        (redocHtmlSync title specUrl nonce redocOptions) = true ∧
    countOcc "<title>".data (redocHtmlSync title specUrl nonce redocOptions) = 1 ∧
    countOcc "</title>".data (redocHtmlSync title specUrl nonce redocOptions) = 1 ∧
    countOcc "<script".data (redocHtmlSync title specUrl nonce redocOptions) = 2 ∧
    countOcc "<html>".data (redocHtmlSync title specUrl nonce redocOptions) = 1 ∧
    countOcc "</html>".data (redocHtmlSync title specUrl nonce redocOptions) = 1 ∧
    countOcc "<head>".data (redocHtmlSync title specUrl nonce redocOptions) = 1 ∧
    countOcc "</head>".data (redocHtmlSync title specUrl nonce redocOptions) = 1 ∧
    countOcc "<body>".data (redocHtmlSync title specUrl nonce redocOptions) = 1 ∧
    countOcc "</body>".data (redocHtmlSync title specUrl nonce redocOptions) = 1 := by
  have hfill := fillTemplate_eq _ _ _ _ ht hu hn ho
  have ht2 := lt_not_mem_safeTitle title
  have hn2 := lt_not_mem_safeNonce nonce
  rw [show redocHtmlSync title specUrl nonce redocOptions
    = fillTemplate (safeTitle title) (safeSpecUrl specUrl) (safeNonce nonce)
      (safeOptions redocOptions) from rfl, hfill]
  refine ⟨?_, ?_, ?_, ?_, ?_, ?_, ?_, ?_, ?_, ?_⟩
  · rw [isPrefixOf_append_left (by decide)]
    decide
  all_goals
    rw [countOcc_filled (by decide) (by decide) ht2 hu2 hn2 ho2
      (by decide) (by decide) (by decide) (by decide)]
    decide

/-- Witness for the amended claim C3 at a concrete configuration. -/
theorem claim_C3_witness :
    countOcc "<script".data
        (redocHtmlSync "My API".data "/spec.json".data "abc123".data (Json.obj [])) = 2 ∧
    "<!DOCTYPE html>".data.isPrefixOf
        (redocHtmlSync "My API".data "/spec.json".data "abc123".data (Json.obj [])) = true := by
  have hu : goodVal (safeSpecUrl "/spec.json".data) = true := by
    rw [show safeSpecUrl "/spec.json".data
        = escSkip 0 (escapeJsString "/spec.json".data) from by
      simp only [safeSpecUrl, escape_eq_escSkip]]
    decide
  have ho : goodVal (safeOptions (Json.obj [])) = true := by
    rw [show safeOptions (Json.obj []) = escSkip 0 (jsonStringify (Json.obj [])) from by
      simp only [safeOptions, escape_eq_escSkip]]
    decide
  have hu2 : '<' ∉ safeSpecUrl "/spec.json".data := by
    rw [show safeSpecUrl "/spec.json".data
        = escSkip 0 (escapeJsString "/spec.json".data) from by
      simp only [safeSpecUrl, escape_eq_escSkip]]
    decide
  have ho2 : '<' ∉ safeOptions (Json.obj []) := by
    rw [show safeOptions (Json.obj []) = escSkip 0 (jsonStringify (Json.obj [])) from by
      simp only [safeOptions, escape_eq_escSkip]]
    decide
  have h := claim_C3_amended "My API".data "/spec.json".data "abc123".data (Json.obj [])
    (by decide) hu (by decide) ho hu2 ho2
  exact ⟨h.2.2.2.1, h.1⟩

/-! ### `src/plugin-system.ts`: render hooks and error middleware

Each hook invocation is awaited to completion before the next starts, so
the asynchronous chains are embedded as sequential folds.  A hook that
throws synchronously and a hook whose promise rejects are
indistinguishable to the caller (both surface as a rejected promise),
so hook outcomes are `Except` values carrying the error. -/

/-- The options record passed to render hooks
(`RedocOptions` of `src/types/plugin.ts`); all fields optional. -/
structure RedocOptions where
  title : Option (List Char) := none
  specUrl : Option (List Char) := none
  nonce : Option (List Char) := none
  redocOptions : Option Json := none

/-- Hook slots of a plugin (`PluginHooks`).  `beforeRender` receives the
current HTML and the options; `afterRender` is declared with the HTML as
its only parameter; `onError` receives the triggering error and either
completes (`ok`) or fails (`error`) — a failure stands for the hook
throwing or signalling an error through its continuation, which both
surface as a rejected promise of `executeOnErrorHook`. -/
structure PluginHooks where
  beforeRender : Option (List Char → RedocOptions → Except (List Char) (List Char)) := none
  afterRender : Option (List Char → Except (List Char) (List Char)) := none
  onError : Option (List Char → Except (List Char) Unit) := none

/-- A plugin: a name and its hooks. -/
structure Plugin where
  name : List Char
  hooks : PluginHooks

/-- Model of `executeBeforeRenderHooks`: a sequential left fold in array
order; a plugin without the hook contributes the identity; a hook
failure is caught (`try`/`catch` around the awaited call) and the chain
continues from the HTML value as it stood before that hook ran.  The
function is total: the returned promise never rejects because of a
failing hook. -/
def executeBeforeRenderHooks (html : List Char) (options : RedocOptions)
    (plugins : List Plugin) : List Char :=
  plugins.foldl (fun currentHtml plugin =>
    match plugin.hooks.beforeRender with
    | some hook =>
      match hook currentHtml options with
      | .ok s => s
      | .error _ => currentHtml
    | none => currentHtml) html

/-- Model of `executeAfterRenderHooks`: identical sequencing and fault
isolation, but the function takes only the HTML and the plugin array —
there is no options parameter, and each hook is invoked with the
current HTML as its sole argument (the third argument passed at the
call site in `redocHtml` is silently dropped). -/
def executeAfterRenderHooks (html : List Char) (plugins : List Plugin) : List Char :=
  plugins.foldl (fun currentHtml plugin =>
    match plugin.hooks.afterRender with
    | some hook =>
      match hook currentHtml with
      | .ok s => s
      | .error _ => currentHtml
    | none => currentHtml) html

/-- Model of `executeOnErrorHook`: wraps one `onError` hook in a
promise that resolves when the hook's continuation is invoked without
an error and rejects otherwise.  A synchronous throw inside the hook is
caught by the `Promise` constructor and also surfaces as a rejection,
so this function never throws synchronously. -/
def executeOnErrorHook (plugin : Plugin) (error : List Char) : Except (List Char) Unit :=
  match plugin.hooks.onError with
  | some hook => hook error
  | none => .ok ()

/-- The observable outcome of the error middleware: either the host's
next error handler is invoked with the original error, or the
middleware's own promise rejects with a hook's error and the next
handler is never invoked. -/
inductive MiddlewareOutcome where
  | nextCalled (error : List Char) : MiddlewareOutcome
  | rejected (hookError : List Char) : MiddlewareOutcome
deriving DecidableEq

/-- The sequential `reduce` chain of `createOnErrorMiddleware`: the
chain's promise rejects at the first hook rejection.  The `try`/`catch`
inside the reduce callback wraps only the synchronous call of
`executeOnErrorHook` — which never throws (its promise rejects
instead) — while the rejection itself surfaces at the *next* step's
`await previousPromise`, which sits outside the `try`, or at the
middleware's own `await`; so the catch block is unreachable and a hook
failure propagates. -/
def runOnErrorChain (error : List Char) : List Plugin → Except (List Char) Unit
  | [] => .ok ()
  | p :: ps =>
    match executeOnErrorHook p error with
    | .ok _ => runOnErrorChain error ps
    | .error e => .error e

/-- Model of the middleware returned by `createOnErrorMiddleware`:
`await` the reduce chain, then call `next(error)`.  When the chain's
promise rejects, the `await` re-throws inside the async middleware, its
promise rejects, and `next(error)` is never reached. -/
def createOnErrorMiddleware (plugins : List Plugin) (error : List Char) :
    MiddlewareOutcome :=
  match runOnErrorChain error plugins with
  | .ok _ => .nextCalled error
  | .error e => .rejected e

/-! ### Claim C6 -/

/-- A plugin whose `beforeRender` appends `-tag` to the HTML. -/
def appendPlugin (tag : List Char) : Plugin :=
  ⟨tag, { beforeRender := some (fun h _ => .ok (h ++ '-' :: tag)) }⟩

/-- A plugin whose `beforeRender` throws. -/
def throwingPlugin : Plugin :=
  ⟨"A".data, { beforeRender := some (fun _ _ => .error "boom".data) }⟩

/-- Claim C6: `executeBeforeRenderHooks` is the left fold of the plugin
array over the HTML — an absent hook contributes the identity, a
successful hook's output feeds the next plugin, a failing hook
contributes the identity so the chain continues from the pre-hook HTML,
and the example instances hold: appenders A then B on `x` give `x-A-B`,
and with A throwing the result is `x-B`. -/
theorem claim_C6_beforeRender_fold (html : List Char) (options : RedocOptions) :
    executeBeforeRenderHooks html options [] = html ∧
    (∀ p ps, p.hooks.beforeRender = none →
      executeBeforeRenderHooks html options (p :: ps)
        = executeBeforeRenderHooks html options ps) ∧
    (∀ p ps f h', p.hooks.beforeRender = some f → f html options = .ok h' →
      executeBeforeRenderHooks html options (p :: ps)
        = executeBeforeRenderHooks h' options ps) ∧
    (∀ p ps f e, p.hooks.beforeRender = some f → f html options = .error e →
      executeBeforeRenderHooks html options (p :: ps)
        = executeBeforeRenderHooks html options ps) ∧
    executeBeforeRenderHooks "x".data options
        [appendPlugin "A".data, appendPlugin "B".data] = "x-A-B".data ∧
    executeBeforeRenderHooks "x".data options
        [throwingPlugin, appendPlugin "B".data] = "x-B".data := by
  refine ⟨rfl, ?_, ?_, ?_, rfl, rfl⟩
  · intro p ps hnone
    simp [executeBeforeRenderHooks, hnone]
  · intro p ps f h' hsome hok
    simp [executeBeforeRenderHooks, hsome, hok]
  · intro p ps f e hsome herr
    simp [executeBeforeRenderHooks, hsome, herr]

/-- Witness for claim C6: the fold equations applied at a concrete
plugin and input. -/
theorem claim_C6_witness :
    (appendPlugin "A".data).hooks.beforeRender
        = some (fun h _ => .ok (h ++ '-' :: "A".data)) ∧
    executeBeforeRenderHooks "x".data {} [appendPlugin "A".data]
      = executeBeforeRenderHooks "x-A".data {} [] := by
  refine ⟨rfl, ?_⟩
  exact (claim_C6_beforeRender_fold "x".data {}).2.2.1 (appendPlugin "A".data) []
    (fun h _ => .ok (h ++ '-' :: "A".data)) "x-A".data rfl rfl

/-! ### Claim C7 -/

/-- A plugin whose `onError` hook signals an error through its
continuation. -/
def errSignalPlugin : Plugin :=
  ⟨"bad".data, { onError := some (fun _ => .error "hookfail".data) }⟩

/-- A plugin whose `onError` hook completes normally. -/
def okErrorPlugin : Plugin :=
  ⟨"good".data, { onError := some (fun _ => .ok ()) }⟩

/-- Claim C7 evaluation at the failing input: with a single plugin whose
`onError` hook signals an error, the error middleware's promise rejects
with the hook's error and the host's next error handler is never
invoked with the original error — contradicting the claim that hook
failures are caught and the original error always forwarded.  With a
well-behaved hook the original error is forwarded. -/
theorem claim_C7_failing_eval :
    createOnErrorMiddleware [errSignalPlugin] "original".data
      = MiddlewareOutcome.rejected "hookfail".data ∧
    createOnErrorMiddleware [okErrorPlugin] "original".data
      = MiddlewareOutcome.nextCalled "original".data :=
  ⟨rfl, rfl⟩

/-! ### `src/plugins/auth/index.ts` -/

/-- Modelled dependency: value of one base64 alphabet character as
Node's forgiving `Buffer.from(s, 'base64')` reads it (standard and
url-safe alphabets); `none` for characters outside the alphabet, which
the decoder skips. -/
def base64CharVal (c : Char) : Option Nat :=
  if 65 ≤ c.toNat ∧ c.toNat ≤ 90 then some (c.toNat - 65)
  else if 97 ≤ c.toNat ∧ c.toNat ≤ 122 then some (c.toNat - 71)
  else if 48 ≤ c.toNat ∧ c.toNat ≤ 57 then some (c.toNat + 4)
  else if c = '+' ∨ c = '-' then some 62
  else if c = '/' ∨ c = '_' then some 63
  else none

/-- Sextets of a base64 text: characters up to the first `=` padding,
non-alphabet characters skipped. -/
def base64Sextets (s : List Char) : List Nat :=
  (s.takeWhile (fun c => !(decide (c = '=')))).filterMap base64CharVal

/-- Bytes from base64 sextets, four at a time; two or three trailing
sextets yield one or two trailing bytes. -/
def sextetsToBytes : List Nat → List Nat
  | a :: b :: c :: d :: rest =>
    (a * 4 + b / 16) :: ((b % 16) * 16 + c / 4) :: ((c % 4) * 64 + d)
      :: sextetsToBytes rest
  | [a, b] => [a * 4 + b / 16]
  | [a, b, c] => [a * 4 + b / 16, (b % 16) * 16 + c / 4]
  | _ => []

/-- Modelled dependency: `Buffer.from(s, 'base64')`. -/
def base64Decode (s : List Char) : List Nat :=
  sextetsToBytes (base64Sextets s)

/-- Modelled dependency: `buffer.toString('utf8')` on well-formed UTF-8
bytes (`none` on a malformed sequence, where Node would substitute
replacement characters — the claims only evaluate well-formed input). -/
def utf8Decode : List Nat → Option (List Char)
  | [] => some []
  | b :: bs =>
    if b < 0x80 then (utf8Decode bs).map (Char.ofNat b :: ·)
    else if 0xc0 ≤ b ∧ b < 0xe0 then
      match bs with
      | b2 :: rest =>
        if 0x80 ≤ b2 ∧ b2 < 0xc0 then
          (utf8Decode rest).map (Char.ofNat ((b - 0xc0) * 64 + (b2 - 0x80)) :: ·)
        else none
      | [] => none
    else if 0xe0 ≤ b ∧ b < 0xf0 then
      match bs with
      | b2 :: b3 :: rest =>
        if (0x80 ≤ b2 ∧ b2 < 0xc0) ∧ (0x80 ≤ b3 ∧ b3 < 0xc0) then
          (utf8Decode rest).map
            (Char.ofNat ((b - 0xe0) * 4096 + (b2 - 0x80) * 64 + (b3 - 0x80)) :: ·)
        else none
      | _ => none
    else if 0xf0 ≤ b ∧ b < 0xf8 then
      match bs with
      | b2 :: b3 :: b4 :: rest =>
        if (0x80 ≤ b2 ∧ b2 < 0xc0) ∧ (0x80 ≤ b3 ∧ b3 < 0xc0) ∧ (0x80 ≤ b4 ∧ b4 < 0xc0) then
          (utf8Decode rest).map
            (Char.ofNat ((b - 0xf0) * 262144 + (b2 - 0x80) * 4096
              + (b3 - 0x80) * 64 + (b4 - 0x80)) :: ·)
        else none
      | _ => none
    else none

/-- Model of `parseBasicAuth`: split the header on spaces, require
exactly two parts with the first equal to `Basic`, decode the second
from base64, and destructure `credentials.split(':')` — the username is
the first field and the password the second field *or undefined*, so a
decoded credential string with two or more colons loses everything
after the second colon. -/
def parseBasicAuth (authHeader : List Char) : Option (List Char × Option (List Char)) :=
  let parts := authHeader.splitOn ' '
  if parts.length = 2 ∧ parts.headD [] = "Basic".data then
    match utf8Decode (base64Decode (parts.getD 1 [])) with
    | some credentials =>
      let fields := credentials.splitOn ':'
      some (fields.headD [], fields[1]?)
    | none => none
  else none

/-- Model of `parseBearerAuth`. -/
def parseBearerAuth (authHeader : List Char) : Option (List Char) :=
  let parts := authHeader.splitOn ' '
  if parts.length = 2 ∧ parts.headD [] = "Bearer".data then
    some (parts.getD 1 [])
  else none

/-- Authentication mode. -/
inductive AuthType where
  | basic : AuthType
  | bearer : AuthType
  | custom : AuthType
deriving DecidableEq

/-- Configuration of the auth plugin, with the source's defaults.  The
caller-supplied custom predicate is modelled by the outcome of its
evaluation on the incoming request: `ok b` for a resolved boolean and
`error ()` for a thrown or rejected check. -/
structure AuthPluginOptions where
  type : AuthType := .basic
  username : List Char := []
  password : List Char := []
  token : List Char := []
  customAuth : Option (Except Unit Bool) := none
  realm : List Char := "ReDoc".data
  enabled : Bool := true

/-- The observable outcome of the `onRequest` gate: the continuation is
invoked, or a response is written and the continuation never invoked. -/
inductive AuthResult where
  | nextCalled : AuthResult
  | unauthorized (header : List Char) (status : Nat) (body : List Char) : AuthResult
deriving DecidableEq

/-- Model of `sendUnauthorized`: sets `WWW-Authenticate`, responds 401
with the fixed body `Unauthorized`. -/
def sendUnauthorized (realm ty : List Char) : AuthResult :=
  .unauthorized (ty ++ " realm=\"".data ++ realm ++ "\"".data) 401 "Unauthorized".data

/-- Model of the auth plugin's `onRequest` hook.  `authHeader` is the
`Authorization` request header; `some []` (the empty string) is falsy
in the source and treated like an absent header. -/
def authOnRequest (opts : AuthPluginOptions) (authHeader : Option (List Char)) :
    AuthResult :=
  if opts.enabled = false then .nextCalled
  else if opts.type = .custom ∧ opts.customAuth.isSome then
    match opts.customAuth with
    | some (.ok true) => .nextCalled
    | some (.ok false) => sendUnauthorized opts.realm "Custom".data
    | some (.error _) => sendUnauthorized opts.realm "Custom".data
    | none => .nextCalled
  else
    match authHeader with
    | none =>
      sendUnauthorized opts.realm
        (if opts.type = .basic then "Basic".data else "Bearer".data)
    | some h =>
      if h = [] then
        sendUnauthorized opts.realm
          (if opts.type = .basic then "Basic".data else "Bearer".data)
      else if opts.type = .basic then
        match parseBasicAuth h with
        | some (u, p) =>
          if u = opts.username ∧ p = some opts.password then .nextCalled
          else sendUnauthorized opts.realm "Basic".data
        | none => sendUnauthorized opts.realm "Basic".data
      else if opts.type = .bearer then
        match parseBearerAuth h with
        | some tok =>
          if tok = opts.token then .nextCalled
          else sendUnauthorized opts.realm "Bearer".data
        | none => sendUnauthorized opts.realm "Bearer".data
      else sendUnauthorized opts.realm "Basic".data

/-! ### Claim C8 -/

/-- Claim C8 at the failing input: with configured username `admin` and
password `a:b`, the correctly supplied header
`Basic YWRtaW46YTpi` (base64 of `admin:a:b`) is rejected with 401 —
`credentials.split(':')` splits on every colon and the destructuring
keeps only the first two fields, so the parsed password is `a`, not
`a:b` — while the claim (split once on the first colon) says it must
authenticate.  Colon-free passwords behave as claimed. -/
theorem claim_C8_colon_password :
    parseBasicAuth "Basic YWRtaW46YTpi".data
      = some ("admin".data, some "a".data) ∧
    authOnRequest { type := .basic, username := "admin".data, password := "a:b".data }
        (some "Basic YWRtaW46YTpi".data)
      = sendUnauthorized "ReDoc".data "Basic".data ∧
    authOnRequest
        { type := .basic, username := "admin".data, password := "secret123".data }
        (some "Basic YWRtaW46c2VjcmV0MTIz".data)
      = AuthResult.nextCalled ∧
    authOnRequest { type := .basic, username := "admin".data, password := "a:b".data }
        none
      = AuthResult.unauthorized "Basic realm=\"ReDoc\"".data 401 "Unauthorized".data := by
  refine ⟨by decide, by decide, by decide, by decide⟩

/-! ### Modelled dependency: `crypto.createHash('sha256')`

A direct embedding of FIPS 180-4 SHA-256 over byte lists, matching the
standard test vectors (for instance the digest of `abc` begins
`ba7816bf8f01cfea`); 32-bit words are naturals reduced modulo `2^32`. -/

/-- The modulus of 32-bit words. -/
def pow2x32 : Nat := 4294967296

/-- Right rotation of a 32-bit word. -/
def rotr (n x : Nat) : Nat := (x / 2 ^ n + x * 2 ^ (32 - n)) % pow2x32

/-- The SHA-256 choice function. -/
def shaCh (x y z : Nat) : Nat := (x &&& y) ^^^ ((x ^^^ 4294967295) &&& z)

/-- The SHA-256 majority function. -/
def shaMaj (x y z : Nat) : Nat := (x &&& y) ^^^ (x &&& z) ^^^ (y &&& z)

/-- The SHA-256 Σ₀ function. -/
def bigSigma0 (x : Nat) : Nat := rotr 2 x ^^^ rotr 13 x ^^^ rotr 22 x

/-- The SHA-256 Σ₁ function. -/
def bigSigma1 (x : Nat) : Nat := rotr 6 x ^^^ rotr 11 x ^^^ rotr 25 x

/-- The SHA-256 σ₀ function. -/
def smallSigma0 (x : Nat) : Nat := rotr 7 x ^^^ rotr 18 x ^^^ (x / 2 ^ 3)

/-- The SHA-256 σ₁ function. -/
def smallSigma1 (x : Nat) : Nat := rotr 17 x ^^^ rotr 19 x ^^^ (x / 2 ^ 10)

/-- The SHA-256 round constants. -/
def shaK : List Nat :=
  [
   1116352408, 1899447441, 3049323471, 3921009573, 961987163, 1508970993,
   2453635748, 2870763221, 3624381080, 310598401, 607225278, 1426881987,
   1925078388, 2162078206, 2614888103, 3248222580, 3835390401, 4022224774,
   264347078, 604807628, 770255983, 1249150122, 1555081692, 1996064986,
   2554220882, 2821834349, 2952996808, 3210313671, 3336571891, 3584528711,
   113926993, 338241895, 666307205, 773529912, 1294757372, 1396182291,
   1695183700, 1986661051, 2177026350, 2456956037, 2730485921, 2820302411,
   3259730800, 3345764771, 3516065817, 3600352804, 4094571909, 275423344,
   430227734, 506948616, 659060556, 883997877, 958139571, 1322822218,
   1537002063, 1747873779, 1955562222, 2024104815, 2227730452, 2361852424,
   2428436474, 2756734187, 3204031479, 3329325298]

/-- The SHA-256 initial hash state. -/
def shaH0 : List Nat :=
  [
   1779033703, 3144134277, 1013904242, 2773480762, 1359893119, 2600822924,
   528734635, 1541459225]

/-- Big-endian byte rendering of a natural, `k` bytes wide. -/
def natToBytesBE : Nat → Nat → List Nat
  | 0, _ => []
  | k + 1, n => natToBytesBE k (n / 256) ++ [n % 256]

/-- Big-endian 32-bit words from bytes. -/
def bytesToWords : List Nat → List Nat
  | a :: b :: c :: d :: rest =>
    (a * 16777216 + b * 65536 + c * 256 + d) :: bytesToWords rest
  | _ => []

/-- One message-schedule extension step. -/
def scheduleStep (w : List Nat) (_ : Nat) : List Nat :=
  w ++ [(smallSigma1 (w.getD (w.length - 2) 0) + w.getD (w.length - 7) 0
    + smallSigma0 (w.getD (w.length - 15) 0) + w.getD (w.length - 16) 0) % pow2x32]

/-- The 64-entry message schedule from a 16-word block. -/
def shaSchedule (ws : List Nat) : List Nat := (List.range 48).foldl scheduleStep ws

/-- One compression round; the state is the eight working variables. -/
def shaRound (st : List Nat) (kw : Nat × Nat) : List Nat :=
  let a := st.getD 0 0
  let b := st.getD 1 0
  let c := st.getD 2 0
  let d := st.getD 3 0
  let e := st.getD 4 0
  let f := st.getD 5 0
  let g := st.getD 6 0
  let h := st.getD 7 0
  let t1 := (h + bigSigma1 e + shaCh e f g + kw.1 + kw.2) % pow2x32
  let t2 := (bigSigma0 a + shaMaj a b c) % pow2x32
  [(t1 + t2) % pow2x32, a, b, c, (d + t1) % pow2x32, e, f, g]

/-- Compression of one block into the hash state. -/
def shaBlock (h : List Nat) (block : List Nat) : List Nat :=
  let st := ((shaSchedule block).zip shaK).foldl shaRound h
  (h.zip st).map (fun p => (p.1 + p.2) % pow2x32)

/-- The padded message split into 16-word blocks. -/
def chunksOf16 : List Nat → List (List Nat)
  | w0 :: w1 :: w2 :: w3 :: w4 :: w5 :: w6 :: w7
      :: w8 :: w9 :: w10 :: w11 :: w12 :: w13 :: w14 :: w15 :: rest =>
    [w0, w1, w2, w3, w4, w5, w6, w7, w8, w9, w10, w11, w12, w13, w14, w15]
      :: chunksOf16 rest
  | _ => []

/-- SHA-256 digest (32 bytes) of a byte message. -/
def sha256Bytes (m : List Nat) : List Nat :=
  let padded := m ++ 128 :: List.replicate ((56 + 64 - ((m.length + 1) % 64)) % 64) 0
    ++ natToBytesBE 8 (m.length * 8)
  ((chunksOf16 (bytesToWords padded)).foldl shaBlock shaH0).flatMap (natToBytesBE 4)

/-- Lowercase hexadecimal rendering of bytes, as `digest('hex')`. -/
def hexOfBytes (bs : List Nat) : List Char :=
  bs.flatMap (fun b => [hexDigit (b / 16), hexDigit (b % 16)])

/-- UTF-8 encoding of one scalar value. -/
def utf8EncodeChar (c : Char) : List Nat :=
  let n := c.toNat
  if n < 0x80 then [n]
  else if n < 0x800 then [0xc0 + n / 64, 0x80 + n % 64]
  else if n < 0x10000 then [0xe0 + n / 4096, 0x80 + (n / 64) % 64, 0x80 + n % 64]
  else [0xf0 + n / 262144, 0x80 + (n / 4096) % 64, 0x80 + (n / 64) % 64, 0x80 + n % 64]

/-- UTF-8 encoding of a string; its length is `Buffer.byteLength(s, 'utf8')`. -/
def utf8Encode (s : List Char) : List Nat := s.flatMap utf8EncodeChar

/-! ### `src/plugins/cache/index.ts` (keyed variant) -/

/-- Key order for `Object.keys(obj).sort()`: the default comparator
compares keys as strings, modelled by the lexicographic order on
scalar values. -/
def keyLe (a b : List Char × Json) : Prop := a.1 ≤ b.1

instance : DecidableRel keyLe := fun a b => inferInstanceAs (Decidable (a.1 ≤ b.1))

mutual

/-- Recursively sorts every object's fields by key (`sort()` is stable,
modelled by insertion sort).  `stableStringify` of the source is
`JSON.stringify` composed with this ordering pass: for an object it
prints the fields in sorted key order with recursively stable values,
which for the duplicate-free key sets of JavaScript objects is exactly
`'{' + keys.sort().map(k => JSON.stringify(k) + ':' + stableStringify(obj[k])).join(',') + '}'`. -/
def sortJson : Json → Json
  | .obj fields => .obj (List.insertionSort keyLe (sortJsonFields fields))
  | .arr elems => .arr (sortJsonList elems)
  | .null => .null
  | .bool b => .bool b
  | .num n => .num n
  | .str s => .str s

/-- Elementwise ordering pass for arrays. -/
def sortJsonList : List Json → List Json
  | [] => []
  | x :: xs => sortJson x :: sortJsonList xs

/-- Fieldwise ordering pass for objects (keys untouched, values
recursively sorted). -/
def sortJsonFields : List (List Char × Json) → List (List Char × Json)
  | [] => []
  | (k, v) :: fs => (k, sortJson v) :: sortJsonFields fs

end

/-- Model of `stableStringify`: order-independent JSON serialisation. -/
def stableStringify (j : Json) : List Char := jsonStringify (sortJson j)

/-- The fixed legacy cache key. -/
def LEGACY_CACHE_KEY : List Char := "redoc-html".data

/-- Model of `deriveKey`: join the four option fields (with defaults)
on NUL, hash the UTF-8 payload with SHA-256, and keep the first 16 hex
digits. -/
def deriveKey (options : RedocOptions) : List Char :=
  let payload := options.title.getD [] ++ Char.ofNat 0
    :: options.specUrl.getD [] ++ Char.ofNat 0
    :: options.nonce.getD [] ++ Char.ofNat 0
    :: stableStringify (options.redocOptions.getD (Json.obj []))
  (hexOfBytes (sha256Bytes (utf8Encode payload))).take 16

/-- One entry of the in-memory cache. -/
structure CacheEntry where
  html : List Char
  timestamp : Nat
  size : Nat
deriving DecidableEq

/-- The `HtmlCache` state: the map is a key-value list in insertion
order (JavaScript `Map` semantics); `ttl` is in milliseconds (the
constructor multiplies the configured seconds by 1000). -/
structure HtmlCache where
  cache : List (List Char × CacheEntry) := []
  ttl : Nat
  maxSize : Nat
  currentSize : Nat := 0

/-- The `HtmlCache` constructor. -/
def htmlCacheNew (ttlSeconds maxSize : Nat) : HtmlCache :=
  { cache := [], ttl := ttlSeconds * 1000, maxSize := maxSize, currentSize := 0 }

/-- `Map.prototype.set`: updates an existing key in place, else appends. -/
def mapSet (m : List (List Char × CacheEntry)) (k : List Char) (v : CacheEntry) :
    List (List Char × CacheEntry) :=
  match m with
  | [] => [(k, v)]
  | p :: rest => if p.1 = k then (k, v) :: rest else p :: mapSet rest k v

/-- `Map.prototype.delete`. -/
def mapDelete (m : List (List Char × CacheEntry)) (k : List Char) :
    List (List Char × CacheEntry) :=
  match m with
  | [] => []
  | p :: rest => if p.1 = k then rest else p :: mapDelete rest k

/-- The `forEach` scan of `evictOldest`: the key of the first entry
whose timestamp is strictly below the running minimum, which starts at
`Date.now()`. -/
def findOldest (m : List (List Char × CacheEntry)) (now : Nat) : Option (List Char) :=
  (m.foldl (fun acc p =>
    if p.2.timestamp < acc.2 then (some p.1, p.2.timestamp) else acc)
    ((none : Option (List Char)), now)).1

/-- Model of `HtmlCache.evictOldest`. -/
def HtmlCache.evictOldest (st : HtmlCache) (now : Nat) : HtmlCache :=
  match findOldest st.cache now with
  | some k =>
    match st.cache.lookup k with
    | some e =>
      { st with cache := mapDelete st.cache k, currentSize := st.currentSize - e.size }
    | none => st
  | none => st

/-- Model of `HtmlCache.set` (`Date.now()` is the explicit `now`). -/
def HtmlCache.set (st : HtmlCache) (now : Nat) (key html : List Char) : HtmlCache :=
  let size := (utf8Encode html).length
  let st1 := if st.currentSize + size > st.maxSize then st.evictOldest now else st
  { st1 with cache := mapSet st1.cache key ⟨html, now, size⟩, currentSize := st1.currentSize + size }

/-- Model of `HtmlCache.get`: lazy TTL expiry on read. -/
def HtmlCache.get (st : HtmlCache) (now : Nat) (key : List Char) :
    HtmlCache × Option (List Char) :=
  match st.cache.lookup key with
  | none => (st, none)
  | some e =>
    if now - e.timestamp > st.ttl then
      ({ st with cache := mapDelete st.cache key, currentSize := st.currentSize - e.size }, none)
    else (st, some e.html)

/-- Model of the cache plugin's `afterRender` hook: derives the key
from the options when one is passed, else uses the legacy key, and
stores the HTML; always returns the HTML unchanged. -/
def cacheAfterRender (enabled : Bool) (st : HtmlCache) (now : Nat) (html : List Char)
    (options : Option RedocOptions) : HtmlCache × List Char :=
  if enabled = false then (st, html)
  else
    let cacheKey := match options with
      | some o => deriveKey o
      | none => LEGACY_CACHE_KEY
    (st.set now cacheKey html, html)

/-- Model of the cache plugin's `beforeRender` hook: on a non-expired
entry returns the cached HTML instead of the input; note the source's
`if (cached)` is a truthiness test, so an empty cached string behaves
like a miss. -/
def cacheBeforeRender (enabled : Bool) (st : HtmlCache) (now : Nat) (html : List Char)
    (options : Option RedocOptions) : HtmlCache × List Char :=
  if enabled = false then (st, html)
  else
    let cacheKey := match options with
      | some o => deriveKey o
      | none => LEGACY_CACHE_KEY
    let res := st.get now cacheKey
    match res.2 with
    | some cached => if cached = [] then (res.1, html) else (res.1, cached)
    | none => (res.1, html)

/-! ### Key-order independence of `stableStringify` -/

instance : IsTotal (List Char × Json) keyLe := ⟨fun a b => le_total a.1 b.1⟩

instance : IsTrans (List Char × Json) keyLe := ⟨fun _ _ _ h1 h2 => le_trans h1 h2⟩

/-- Strict key order, antisymmetric even in the presence of values. -/
def keyLt (a b : List Char × Json) : Prop := a.1 < b.1

instance : IsAntisymm (List Char × Json) keyLt :=
  ⟨fun a b h1 h2 => absurd (lt_trans h1 h2) (lt_irrefl a.1)⟩

theorem sortJsonFields_map (l : List (List Char × Json)) :
    sortJsonFields l = l.map (fun p => (p.1, sortJson p.2)) := by
  induction l with
  | nil => rfl
  | cons p fs ih =>
    rcases p with ⟨k, v⟩
    simp [sortJsonFields, ih]

theorem sortJsonFields_keys (l : List (List Char × Json)) :
    (sortJsonFields l).map Prod.fst = l.map Prod.fst := by
  rw [sortJsonFields_map, List.map_map]
  rfl

theorem sorted_strict_of_nodup {l : List (List Char × Json)}
    (hs : List.Sorted keyLe l) (hn : (l.map Prod.fst).Nodup) :
    List.Sorted keyLt l := by
  have hpn : l.Pairwise (fun a b => a.1 ≠ b.1) := (List.pairwise_map).mp hn
  exact (hs.and hpn).imp (fun h => lt_of_le_of_ne h.1 h.2)

/-- The stable serialisation of an object does not depend on the order
of its (duplicate-free) fields. -/
theorem stableStringify_perm {o1 o2 : List (List Char × Json)}
    (hperm : o1.Perm o2) (hnodup : (o1.map Prod.fst).Nodup) :
    stableStringify (Json.obj o1) = stableStringify (Json.obj o2) := by
  have hfieldperm : (sortJsonFields o1).Perm (sortJsonFields o2) := by
    rw [sortJsonFields_map, sortJsonFields_map]
    exact hperm.map _
  have hk1 : ((sortJsonFields o1).map Prod.fst).Nodup := by
    rw [sortJsonFields_keys]; exact hnodup
  have hk2 : ((sortJsonFields o2).map Prod.fst).Nodup := by
    rw [sortJsonFields_keys]
    exact ((hperm.map Prod.fst).nodup_iff).mp hnodup
  have hsortperm : (List.insertionSort keyLe (sortJsonFields o1)).Perm
      (List.insertionSort keyLe (sortJsonFields o2)) :=
    ((List.perm_insertionSort keyLe _).trans hfieldperm).trans
      (List.perm_insertionSort keyLe _).symm
  have hnodup1 : ((List.insertionSort keyLe (sortJsonFields o1)).map Prod.fst).Nodup :=
    (((List.perm_insertionSort keyLe _).map Prod.fst).nodup_iff).mpr hk1
  have hnodup2 : ((List.insertionSort keyLe (sortJsonFields o2)).map Prod.fst).Nodup :=
    (((List.perm_insertionSort keyLe _).map Prod.fst).nodup_iff).mpr hk2
  have heq : List.insertionSort keyLe (sortJsonFields o1)
      = List.insertionSort keyLe (sortJsonFields o2) :=
    List.eq_of_perm_of_sorted hsortperm
      (sorted_strict_of_nodup (List.sorted_insertionSort keyLe _) hnodup1)
      (sorted_strict_of_nodup (List.sorted_insertionSort keyLe _) hnodup2)
  unfold stableStringify
  simp [sortJson, heq]

theorem deriveKey_congr {t u n : Option (List Char)} {o1 o2 : List (List Char × Json)}
    (hperm : o1.Perm o2) (hnodup : (o1.map Prod.fst).Nodup) :
    deriveKey ⟨t, u, n, some (Json.obj o1)⟩ = deriveKey ⟨t, u, n, some (Json.obj o2)⟩ := by
  unfold deriveKey
  rw [show (RedocOptions.mk t u n (some (Json.obj o1))).redocOptions.getD (Json.obj [])
      = Json.obj o1 from rfl,
    show (RedocOptions.mk t u n (some (Json.obj o2))).redocOptions.getD (Json.obj [])
      = Json.obj o2 from rfl,
    stableStringify_perm hperm hnodup]

/-! ### Cache map and state lemmas -/

theorem lookup_mapSet_self (m : List (List Char × CacheEntry)) (k : List Char)
    (v : CacheEntry) : List.lookup k (mapSet m k v) = some v := by
  induction m with
  | nil => simp [mapSet, List.lookup]
  | cons p rest ih =>
    by_cases h : p.1 = k
    · simp [mapSet, h, List.lookup]
    · rcases p with ⟨pk, pv⟩
      have hne : (k == pk) = false := by
        rw [beq_eq_false_iff_ne]
        exact fun he => h he.symm
      simp only [mapSet, h, if_false, reduceIte]
      simp only [List.lookup]
      rw [hne]
      exact ih

theorem lookup_none_of_legacy_keys {m : List (List Char × CacheEntry)} {k : List Char}
    (hkeys : ∀ k' ∈ m.map Prod.fst, k' = LEGACY_CACHE_KEY) (hk : k ≠ LEGACY_CACHE_KEY) :
    List.lookup k m = none := by
  induction m with
  | nil => rfl
  | cons p rest ih =>
    rcases p with ⟨pk, pv⟩
    have hp : pk = LEGACY_CACHE_KEY :=
      hkeys pk (List.mem_map_of_mem Prod.fst (List.mem_cons_self (pk, pv) rest))
    have hrest : ∀ k' ∈ rest.map Prod.fst, k' = LEGACY_CACHE_KEY := by
      intro k' hm
      exact hkeys k' (by rw [List.map_cons]; exact List.mem_cons_of_mem _ hm)
    simp only [List.lookup]
    rw [show (k == pk) = false from by
      rw [beq_eq_false_iff_ne]; intro he; exact hk (he.trans hp)]
    exact ih hrest

theorem evictOldest_ttl (st : HtmlCache) (now : Nat) : (st.evictOldest now).ttl = st.ttl := by
  unfold HtmlCache.evictOldest
  cases findOldest st.cache now with
  | none => rfl
  | some k =>
    show (match List.lookup k st.cache with
      | some e =>
        { st with cache := mapDelete st.cache k, currentSize := st.currentSize - e.size }
      | none => st).ttl = st.ttl
    cases List.lookup k st.cache with
    | none => rfl
    | some e => rfl

theorem set_ttl (st : HtmlCache) (now : Nat) (key html : List Char) :
    (st.set now key html).ttl = st.ttl := by
  unfold HtmlCache.set
  by_cases h : st.currentSize + (utf8Encode html).length > st.maxSize
  · simp only [h, if_pos, reduceIte]
    exact evictOldest_ttl st now
  · simp [h]

/-- The entry just written by `set` is always found by `lookup` (the
`set` may evict an oldest entry first, but the fresh entry is present
afterwards in every branch). -/
theorem lookup_set_self (st : HtmlCache) (now : Nat) (key H : List Char) :
    List.lookup key (st.set now key H).cache
      = some ⟨H, now, (utf8Encode H).length⟩ := by
  unfold HtmlCache.set
  by_cases h : st.currentSize + (utf8Encode H).length > st.maxSize
  · simp only [h, if_pos, reduceIte]
    exact lookup_mapSet_self _ _ _
  · simp only [h, reduceIte]
    exact lookup_mapSet_self _ _ _

/-- After `set`, reading the same key within the TTL yields the stored
HTML. -/
theorem get_after_set (st : HtmlCache) (now1 now2 : Nat) (key H : List Char)
    (httl : ¬ (now2 - now1 > st.ttl)) :
    ((st.set now1 key H).get now2 key).2 = some H := by
  unfold HtmlCache.get
  rw [lookup_set_self]
  rw [set_ttl] at *
  simp only [httl, if_neg, reduceIte]

/-- A key absent from the map reads back as a miss without touching the
state. -/
theorem get_of_lookup_none (st : HtmlCache) (now : Nat) (key : List Char)
    (h : List.lookup key st.cache = none) : st.get now key = (st, none) := by
  unfold HtmlCache.get
  rw [h]

/-- Unfolding equation: the enabled `afterRender` hook with no options
stores under the legacy key. -/
theorem cacheAfterRender_true_none (st : HtmlCache) (now : Nat) (html : List Char) :
    cacheAfterRender true st now html none
      = (st.set now LEGACY_CACHE_KEY html, html) := rfl

/-- Unfolding equation: the enabled `afterRender` hook with options
stores under the derived key. -/
theorem cacheAfterRender_true_some (st : HtmlCache) (now : Nat) (html : List Char)
    (o : RedocOptions) :
    cacheAfterRender true st now html (some o)
      = (st.set now (deriveKey o) html, html) := rfl

/-- Unfolding equation: the enabled `beforeRender` hook with no options
reads the legacy key. -/
theorem cacheBeforeRender_true_none (st : HtmlCache) (now : Nat) (html : List Char) :
    cacheBeforeRender true st now html none
      = (match (st.get now LEGACY_CACHE_KEY).2 with
        | some cached =>
          if cached = [] then ((st.get now LEGACY_CACHE_KEY).1, html)
          else ((st.get now LEGACY_CACHE_KEY).1, cached)
        | none => ((st.get now LEGACY_CACHE_KEY).1, html)) := rfl

/-- Unfolding equation: the enabled `beforeRender` hook with options
reads the derived key. -/
theorem cacheBeforeRender_true_some (st : HtmlCache) (now : Nat) (html : List Char)
    (o : RedocOptions) :
    cacheBeforeRender true st now html (some o)
      = (match (st.get now (deriveKey o)).2 with
        | some cached =>
          if cached = [] then ((st.get now (deriveKey o)).1, html)
          else ((st.get now (deriveKey o)).1, cached)
        | none => ((st.get now (deriveKey o)).1, html)) := rfl

/-- The lookup-result step of `beforeRender` on a non-empty hit returns
the cached HTML. -/
theorem hit_step (p : HtmlCache × Option (List Char)) (H html : List Char)
    (hp : p.2 = some H) (hne : H ≠ []) :
    (match p.2 with
      | some cached => if cached = [] then (p.1, html) else (p.1, cached)
      | none => (p.1, html)).2 = H := by
  rw [hp]
  show (if H = [] then (p.1, html) else (p.1, H)).2 = H
  rw [if_neg hne]

/-- The lookup-result step of `beforeRender` on a miss passes the input
HTML through. -/
theorem miss_step (p : HtmlCache × Option (List Char)) (html : List Char)
    (hp : p.2 = none) :
    (match p.2 with
      | some cached => if cached = [] then (p.1, html) else (p.1, cached)
      | none => (p.1, html)).2 = html := by
  rw [hp]

/-- Store-then-fetch through the two hooks with one and the same
options value: a non-empty document stored within the TTL is returned
instead of the later input. -/
theorem cache_store_fetch (st : HtmlCache) (now1 now2 : Nat) (H h2 : List Char)
    (opt : Option RedocOptions) (hne : H ≠ []) (httl : ¬ (now2 - now1 > st.ttl)) :
    (cacheBeforeRender true ((cacheAfterRender true st now1 H opt).1) now2 h2 opt).2
      = H := by
  rcases opt with _ | o
  · rw [cacheAfterRender_true_none, cacheBeforeRender_true_none]
    exact hit_step _ H h2 (get_after_set st now1 now2 LEGACY_CACHE_KEY H httl) hne
  · rw [cacheAfterRender_true_some, cacheBeforeRender_true_some]
    exact hit_step _ H h2 (get_after_set st now1 now2 (deriveKey o) H httl) hne

/-! ### Length facts pinning the derived key apart from the legacy key -/

theorem natToBytesBE_length (k : Nat) : ∀ n, (natToBytesBE k n).length = k := by
  induction k with
  | zero => intro n; rfl
  | succ k ih => intro n; simp [natToBytesBE, ih]

theorem foldl_shaRound_length (l : List (Nat × Nat)) :
    ∀ h : List Nat, h.length = 8 → (l.foldl shaRound h).length = 8 := by
  induction l with
  | nil => intro h hh; simpa using hh
  | cons x xs ih => intro h hh; exact ih (shaRound h x) rfl

theorem shaBlock_length (h block : List Nat) (hh : h.length = 8) :
    (shaBlock h block).length = 8 := by
  simp only [shaBlock]
  rw [List.length_map, List.length_zip, hh, foldl_shaRound_length _ _ hh]
  decide

theorem foldl_shaBlock_length (l : List (List Nat)) :
    ∀ h : List Nat, h.length = 8 → (l.foldl shaBlock h).length = 8 := by
  induction l with
  | nil => intro h hh; simpa using hh
  | cons x xs ih => intro h hh; exact ih _ (shaBlock_length h x hh)

theorem length_flatMap_const {α β : Type} (f : α → List β) (c : Nat)
    (hf : ∀ x, (f x).length = c) : ∀ l : List α, (l.flatMap f).length = c * l.length := by
  intro l
  induction l with
  | nil => simp
  | cons x xs ih =>
    rw [List.flatMap_cons, List.length_append, hf, ih, List.length_cons, Nat.mul_succ]
    exact Nat.add_comm c (c * xs.length)

theorem sha256Bytes_length (m : List Nat) : (sha256Bytes m).length = 32 := by
  simp only [sha256Bytes]
  rw [length_flatMap_const (natToBytesBE 4) 4 (fun x => natToBytesBE_length 4 x)]
  rw [foldl_shaBlock_length _ shaH0 (rfl : shaH0.length = 8)]

theorem hexOfBytes_length (bs : List Nat) : (hexOfBytes bs).length = 2 * bs.length := by
  simp only [hexOfBytes]
  exact length_flatMap_const (fun b => [hexDigit (b / 16), hexDigit (b % 16)]) 2
    (fun b => rfl) bs

theorem deriveKey_length (o : RedocOptions) : (deriveKey o).length = 16 := by
  simp only [deriveKey]
  rw [List.length_take, hexOfBytes_length, sha256Bytes_length]
  decide

theorem deriveKey_ne_legacy (o : RedocOptions) : deriveKey o ≠ LEGACY_CACHE_KEY := by
  intro h
  have hl := congrArg List.length h
  rw [deriveKey_length] at hl
  exact absurd hl (by decide)

/-! ### Claim C9 -/

/-- Claim C9 fails as stated: the cache read is an `if (cached)`
truthiness test, so a stored empty document never registers as a hit.
Storing the empty HTML under a config and reading it back one
millisecond later with the identical config returns the input `"x"`
instead of the stored value, even though the entry really is in the
cache (second conjunct). -/
theorem claim_C9_counterexample :
    (cacheBeforeRender true
        ((cacheAfterRender true (htmlCacheNew 3600 1048576) 5 []
          (some ⟨some "T".data, some "/s".data, none, none⟩)).1) 6 "x".data
        (some ⟨some "T".data, some "/s".data, none, none⟩)).2 = "x".data ∧
    List.lookup (deriveKey ⟨some "T".data, some "/s".data, none, none⟩)
        ((cacheAfterRender true (htmlCacheNew 3600 1048576) 5 []
          (some ⟨some "T".data, some "/s".data, none, none⟩)).1).cache
      = some ⟨[], 5, 0⟩ := by
  constructor
  · decide
  · decide

/-- Claim C9 (amended): for a **non-empty** stored document the claim
holds — after the `afterRender` hook stores HTML `H` under a config, a
`beforeRender` call within the TTL whose config has the same `title`,
`specUrl` and `nonce` and a key-permuted (duplicate-free)
`redocOptions` object returns `H` instead of its input; with no config
on either hook the fixed legacy key is used for both the store and the
lookup (second conjunct); and a config differing in `specUrl` is a
cache miss that passes the input HTML through (third conjunct, a
concrete instance with `/s` vs `/s2`).  The counterexample shows the
non-emptiness caveat is needed: an empty stored document is never
returned. -/
theorem claim_C9_amended (st : HtmlCache) (now1 now2 : Nat) (t u n : Option (List Char))
    (o1 o2 : List (List Char × Json)) (H h2 : List Char)
    (hperm : o1.Perm o2) (hnodup : (o1.map Prod.fst).Nodup)
    (hne : H ≠ []) (httl : ¬ (now2 - now1 > st.ttl)) :
    (cacheBeforeRender true
        ((cacheAfterRender true st now1 H (some ⟨t, u, n, some (Json.obj o1)⟩)).1) now2 h2
        (some ⟨t, u, n, some (Json.obj o2)⟩)).2 = H ∧
    (cacheBeforeRender true ((cacheAfterRender true st now1 H none).1) now2 h2 none).2
      = H ∧
    (cacheBeforeRender true
        ((cacheAfterRender true (htmlCacheNew 3600 1048576) 5 "h".data
          (some ⟨some "T".data, some "/s".data, none, none⟩)).1) 6 "x".data
        (some ⟨some "T".data, some "/s2".data, none, none⟩)).2 = "x".data := by
  refine ⟨?_, cache_store_fetch st now1 now2 H h2 none hne httl, ?_⟩
  · rw [cacheAfterRender_true_some, cacheBeforeRender_true_some,
      show deriveKey ⟨t, u, n, some (Json.obj o2)⟩
          = deriveKey ⟨t, u, n, some (Json.obj o1)⟩
        from (deriveKey_congr hperm hnodup).symm]
    exact hit_step _ H h2
      (get_after_set st now1 now2 (deriveKey ⟨t, u, n, some (Json.obj o1)⟩) H httl) hne
  · decide

/-- Witness for claim C9 at a concrete input: the permuted two-field
object `{a: null, b: true}` vs `{b: true, a: null}`, a non-empty stored
document and a one-millisecond-later read. -/
theorem claim_C9_witness :
    ([(("a".data : List Char), Json.null), ("b".data, Json.bool true)]).Perm
        [("b".data, Json.bool true), ("a".data, Json.null)] ∧
    (cacheBeforeRender true
        ((cacheAfterRender true (htmlCacheNew 3600 1048576) 1 "h".data
          (some ⟨none, none, none,
            some (Json.obj [("a".data, Json.null), ("b".data, Json.bool true)])⟩)).1)
        2 "x".data
        (some ⟨none, none, none,
          some (Json.obj [("b".data, Json.bool true), ("a".data, Json.null)])⟩)).2
      = "h".data :=
  ⟨List.Perm.swap _ _ _,
    (claim_C9_amended (htmlCacheNew 3600 1048576) 1 2 none none none
      [("a".data, Json.null), ("b".data, Json.bool true)]
      [("b".data, Json.bool true), ("a".data, Json.null)] "h".data "x".data
      (List.Perm.swap _ _ _) (by decide) (by decide) (by decide)).1⟩

/-! ### Claim C10 -/

/-- The `redocHtml` pipeline with one enabled cache plugin, following
the call sites of `redoc-html-template.ts`: the base document is the
template fill; the call `executeBeforeRenderHooks(renderedHtml,
options, plugins)` passes the options through to the hook, so the
cache's `beforeRender` receives them; the later call
`executeAfterRenderHooks(renderedHtml, plugins, options)` targets a
two-parameter function that invokes each hook with the current HTML as
its sole argument, so the cache's `afterRender` receives no options.
`now1`/`now2` are the two `Date.now()` readings. -/
def redocHtmlWithCache (title specUrl nonce : List Char) (redocOptions : Json)
    (st : HtmlCache) (now1 now2 : Nat) : HtmlCache × List Char :=
  let opts : RedocOptions := ⟨some title, some specUrl, some nonce, some redocOptions⟩
  let base := redocHtmlSync title specUrl nonce redocOptions
  let r1 := cacheBeforeRender true st now1 base (some opts)
  cacheAfterRender true r1.1 now2 r1.2 none

/-- Claim C10 fails as stated: it is not true that both cache hooks
fall back to the legacy key — `beforeRender` does receive the config
and reads the config-derived key.  With a fresh, non-empty document
sitting in the legacy slot (stored at the very timestamp of the read,
so unexpired), a render through the pipeline still returns the plain
template fill and not that cached document: the read went to the
derived key, not to the single shared legacy slot the claim
describes. -/
theorem claim_C10_counterexample :
    (redocHtmlWithCache "T".data "/s".data "n".data (Json.obj [])
        { cache := [(LEGACY_CACHE_KEY, ⟨"C".data, 5, 1⟩)], ttl := 3600000, maxSize := 10485760, currentSize := 1 }
        5 6).2
      = redocHtmlSync "T".data "/s".data "n".data (Json.obj []) ∧
    (redocHtmlWithCache "T".data "/s".data "n".data (Json.obj [])
        { cache := [(LEGACY_CACHE_KEY, ⟨"C".data, 5, 1⟩)], ttl := 3600000, maxSize := 10485760, currentSize := 1 }
        5 6).2
      ≠ "C".data := by
  constructor
  · simp only [redocHtmlWithCache, redocHtmlSync_eval]
    decide
  · simp only [redocHtmlWithCache, redocHtmlSync_eval]
    decide

/-- Claim C10 (amended): the dropped third argument affects only the
`afterRender` side.  For every config and every cache state whose keys
are all the legacy key (the only key the pipeline ever writes), the
pipeline's `beforeRender` looks up the config-derived 16-hex-digit key
— never the legacy key, from which it differs in length — so the
lookup misses and the output is always the plain template fill, while
the following `afterRender`, invoked without the options, stores that
fill under the fixed legacy slot.  Reads and writes thus use different
keys and the cache never serves a document through `redocHtml`; the
claim's picture of both hooks sharing the legacy slot is wrong for the
read side. -/
theorem claim_C10_amended (t u n : List Char) (o : Json) (st : HtmlCache)
    (now1 now2 : Nat)
    (hkeys : ∀ k ∈ st.cache.map Prod.fst, k = LEGACY_CACHE_KEY) :
    (redocHtmlWithCache t u n o st now1 now2).2 = redocHtmlSync t u n o ∧
    List.lookup LEGACY_CACHE_KEY (redocHtmlWithCache t u n o st now1 now2).1.cache
      = some ⟨redocHtmlSync t u n o, now2,
          (utf8Encode (redocHtmlSync t u n o)).length⟩ := by
  have hmiss : List.lookup (deriveKey ⟨some t, some u, some n, some o⟩) st.cache = none :=
    lookup_none_of_legacy_keys hkeys (deriveKey_ne_legacy _)
  have hget : st.get now1 (deriveKey ⟨some t, some u, some n, some o⟩) = (st, none) :=
    get_of_lookup_none st now1 _ hmiss
  have hr1 : cacheBeforeRender true st now1 (redocHtmlSync t u n o)
      (some ⟨some t, some u, some n, some o⟩) = (st, redocHtmlSync t u n o) := by
    rw [cacheBeforeRender_true_some, hget]
  simp only [redocHtmlWithCache]
  rw [hr1, cacheAfterRender_true_none]
  exact ⟨rfl, lookup_set_self st now2 LEGACY_CACHE_KEY (redocHtmlSync t u n o)⟩

/-- Witness for claim C10 at a concrete input: the empty cache (whose
key set vacuously consists of legacy keys only). -/
theorem claim_C10_witness :
    (∀ k ∈ (htmlCacheNew 3600 1048576).cache.map Prod.fst, k = LEGACY_CACHE_KEY) ∧
    ((redocHtmlWithCache "T".data "/s".data [] Json.null (htmlCacheNew 3600 1048576)
        1 2).2
      = redocHtmlSync "T".data "/s".data [] Json.null ∧
    List.lookup LEGACY_CACHE_KEY
        (redocHtmlWithCache "T".data "/s".data [] Json.null (htmlCacheNew 3600 1048576)
          1 2).1.cache
      = some ⟨redocHtmlSync "T".data "/s".data [] Json.null, 2,
          (utf8Encode (redocHtmlSync "T".data "/s".data [] Json.null)).length⟩) :=
  ⟨by simp [htmlCacheNew], claim_C10_amended "T".data "/s".data [] Json.null
    (htmlCacheNew 3600 1048576) 1 2 (by simp [htmlCacheNew])⟩

end Redoc
